import Mathlib

/-!
Verification of the `srt` subtitle editor.

A shallow embedding of `helper.go` and `srt.go` followed by theorems about it.

Conventions of the embedding:

* Go `string` values are lists of characters (`Str`); the regular expressions of
  the source read their input rune by rune.
* Go `uint32` values are natural numbers with every arithmetic operation
  reduced modulo `2^32` exactly where the source performs it.
* Go `int` values are integers; `strconv.Atoi` checks the 64-bit range, every
  other `int` of the source is a counter bounded by the number of entries.
* Fallible functions return `Except SrtError _`.
* `[]*Subtitle` is a list of entries; methods that mutate their receiver return
  the new value next to their result.
-/

namespace srt

/-- Text: a Go string read as a sequence of runes. -/
abbrev Str := List Char

/-- The errors that the package can return. -/
inductive SrtError where
  /-- The value `strconv.ErrSyntax` wrapped by `strconv.Atoi`. -/
  | atoiSyntax : SrtError
  /-- The value `strconv.ErrRange` wrapped by `strconv.Atoi`. -/
  | atoiRange : SrtError
  /-- The error `errors.New("Wrong format: " + strTime)` of `MillisFromSrtFormat`. -/
  | wrongFormat (strTime : Str) : SrtError
  deriving DecidableEq, Repr

deriving instance DecidableEq for Except

/-! ## helper.go -/

/-- The modulus of `uint32` arithmetic. -/
def u32 : Nat := 4294967296

/-- The conversion `uint32(x)` of an `int`: truncation to the low 32 bits. -/
def toUint32 (x : Int) : Nat := (x % 4294967296).toNat

/-- The subtraction `a - b` on `uint32`. -/
def sub32 (a b : Nat) : Nat := (a % u32 + u32 - b % u32) % u32

/-- The function `toMillis` of `helper.go`: every `+=` and `*` is a `uint32` operation. -/
def toMillis (hour min sec ms : Int) : Nat :=
  let result := toUint32 ms
  let result := (result + toUint32 sec * 1000 % u32) % u32
  let result := (result + toUint32 min * 1000 % u32 * 60 % u32) % u32
  let result := (result + toUint32 hour * 1000 % u32 * 60 % u32 * 60 % u32) % u32
  result

/-- The verb `%v` of `fmt.Sprintf` on an unsigned integer: its decimal digits. -/
def fmtV (n : Nat) : Str := Nat.toDigits 10 n

/-- The flag `0` with a width, as in `%02v` and `%03v`: pad on the left with zeros. -/
def padZero (width : Nat) (ds : Str) : Str :=
  List.replicate (width - ds.length) '0' ++ ds

/-- The function `MsToSrtFormat` of `helper.go`. -/
def MsToSrtFormat (ms : Nat) : Str :=
  let hour := ms / (1000 * 60 * 60)
  let ms := ms % (1000 * 60 * 60)
  let min := ms / (1000 * 60)
  let ms := ms % (1000 * 60)
  let sec := ms / 1000
  let ms := ms % 1000
  fmtV hour ++ [':'] ++ padZero 2 (fmtV min) ++ [':'] ++ padZero 2 (fmtV sec) ++ [',']
    ++ padZero 3 (fmtV ms)

/-- The class `\d` of Go regular expressions, and the digit test of `strconv`: `0` to `9`. -/
def isDigit (c : Char) : Bool := decide (48 ≤ c.toNat) && decide (c.toNat ≤ 57)

/-- The value of a string of decimal digits, most significant digit first. -/
def decVal (ds : Str) : Nat := ds.foldl (fun acc c => acc * 10 + (c.toNat - 48)) 0

/-- The size of `int` in bits (`strconv.IntSize` on a 64-bit platform). -/
def intSize : Nat := 64

/-- The function `strconv.Atoi`: an optional sign, then one or more decimal digits,
whose value has to fit the type `int`. -/
def Atoi (s : Str) : Except SrtError Int :=
  let neg : Bool := s.head? == some '-'
  let body : Str := if s.head? == some '-' || s.head? == some '+' then s.tail else s
  if body.isEmpty || !body.all isDigit then .error .atoiSyntax
  else if neg then
    if decVal body ≤ 2 ^ (intSize - 1) then .ok (-(decVal body : Int)) else .error .atoiRange
  else
    if decVal body < 2 ^ (intSize - 1) then .ok (decVal body : Int) else .error .atoiRange

/-- A greedy `+` over a character class: the longest non-empty run of characters of
the class at the head of the input, with the rest of the input. The piece that follows
such a group in both patterns of the source starts with a character outside the class,
so giving back characters can never help and the longest run is the only candidate. -/
def many1 (p : Char → Bool) (cs : Str) : Option (Str × Str) :=
  if (cs.takeWhile p).isEmpty then none else some (cs.takeWhile p, cs.dropWhile p)

/-- A literal piece of a pattern: succeeds with the rest when the input starts with it. -/
def lit (l : Str) (cs : Str) : Option Str :=
  if l.isPrefixOf cs then some (cs.drop l.length) else none

/-- The four groups captured by the pattern of `MillisFromSrtFormat`. -/
structure TimeMatch where
  h : Str
  min : Str
  sec : Str
  ms : Str
  deriving DecidableEq, Repr

/-- A match of the pattern `(\d+):(\d+):(\d+),(\d+)` that starts at the head of the input. -/
def matchTimeAt (cs : Str) : Option TimeMatch :=
  (many1 isDigit cs).bind fun (h, r) =>
  (lit [':'] r).bind fun r =>
  (many1 isDigit r).bind fun (min, r) =>
  (lit [':'] r).bind fun r =>
  (many1 isDigit r).bind fun (sec, r) =>
  (lit [','] r).bind fun r =>
  (many1 isDigit r).bind fun (ms, _) =>
  some ⟨h, min, sec, ms⟩

/-- The call `re.FindStringSubmatch(strTime)`: the pattern is not anchored, so the
leftmost position at which it matches is taken. -/
def findTime : Str → Option TimeMatch
  | [] => none
  | c :: cs =>
    match matchTimeAt (c :: cs) with
    | some m => some m
    | none => findTime cs

/-- The function `MillisFromSrtFormat` of `helper.go`. -/
def MillisFromSrtFormat (strTime : Str) : Except SrtError Nat :=
  match findTime strTime with
  | none => .error (.wrongFormat strTime)
  | some m =>
    match Atoi m.h with
    | .error e => .error e
    | .ok intHour =>
      match Atoi m.min with
      | .error e => .error e
      | .ok intMin =>
        match Atoi m.sec with
        | .error e => .error e
        | .ok intSec =>
          match Atoi m.ms with
          | .error e => .error e
          | .ok intMs => .ok (toMillis intHour intMin intSec intMs)

/-! ## srt.go -/

/-- The struct `Subtitle`: `Num` is an `int`, `StartMs` and `EndMs` are `uint32`. -/
structure Subtitle where
  Num : Int
  StartMs : Nat
  EndMs : Nat
  Text : Str
  deriving DecidableEq, Repr

/-- The method `MarkAsDeleted`. -/
def Subtitle.MarkAsDeleted (s : Subtitle) : Subtitle := { s with Num := -1 }

/-- The method `IsDeleted`. -/
def Subtitle.IsDeleted (s : Subtitle) : Bool := decide (s.Num = -1)

/-- The function `strconv.Itoa`: a minus sign for a negative number, then its decimal digits. -/
def Itoa (n : Int) : Str :=
  if n < 0 then '-' :: Nat.toDigits 10 n.natAbs else Nat.toDigits 10 n.natAbs

/-- The method `(*Subtitle).String`: the pieces written to the builder, in order. -/
def Subtitle.String (s : Subtitle) : Str :=
  Itoa s.Num ++ ['\n'] ++ MsToSrtFormat s.StartMs ++ [' ', '-', '-', '>', ' ']
    ++ MsToSrtFormat s.EndMs ++ ['\n'] ++ s.Text ++ ['\n']

/-- The struct `Srt`: the slice of entries and the cached `count`. -/
structure Srt where
  Subtitles : List Subtitle
  count : Int
  deriving DecidableEq, Repr

/-- The method `GetCount`. -/
def Srt.GetCount (s : Srt) : Int := s.count

/-- The loop of `ForEach` over a slice of entries, started with the counter `idx`, for
a callback that reaches no entry but the one it is handed, as the closures of the
editing methods and of `String` do. The callback receives the rank and the entry, may
change the entry it is handed and the variables `st` that its closure captures, and
answers whether to go on. The result is the slice after the loop, the final `idx` and
the captured variables. -/
def ForEachFrom {σ : Type} (fn : Int → Subtitle → σ → Subtitle × σ × Bool) :
    List Subtitle → Int → σ → List Subtitle × Int × σ
  | [], idx, st => ([], idx, st)
  | sub :: rest, idx, st =>
    if sub.IsDeleted then
      let r := ForEachFrom fn rest idx st
      (sub :: r.1, r.2.1, r.2.2)
    else
      let c := fn (idx + 1) sub st
      if c.2.2 then
        let r := ForEachFrom fn rest (idx + 1) c.2.1
        (c.1 :: r.1, r.2.1, r.2.2)
      else
        (c.1 :: rest, idx + 1, c.2.1)

/-- The method `ForEach`: the loop started with `idx := 0`. -/
def ForEach {σ : Type} (fn : Int → Subtitle → σ → Subtitle × σ × Bool)
    (subs : List Subtitle) (st : σ) : List Subtitle × Int × σ :=
  ForEachFrom fn subs 0 st

/-- The method `(*Srt).String`: the captured variable is the string builder. -/
def Srt.String (s : Srt) : Str :=
  let r := ForEach (fun _ sub (sb : Str) => (sub, sb ++ sub.String, true)) s.Subtitles []
  r.2.2 ++ ['\n']

/-- The method `countSubtitle`. -/
def Srt.countSubtitle (s : Srt) : Int :=
  s.Subtitles.foldl (fun cnt sub => if !sub.IsDeleted then cnt + 1 else cnt) 0

/-- The function `NewSubtitleFromString`. -/
def NewSubtitleFromString (strNum strStart strEnd text : Str) : Except SrtError Subtitle :=
  match Atoi strNum with
  | .error e => .error e
  | .ok num =>
    match MillisFromSrtFormat strStart with
    | .error e => .error e
    | .ok startMs =>
      match MillisFromSrtFormat strEnd with
      | .error e => .error e
      | .ok endMs => .ok { Num := num, StartMs := startMs, EndMs := endMs, Text := text }

/-- The class `[0-9,:]` of the block pattern. -/
def isTimeChar (c : Char) : Bool := isDigit c || c == ',' || c == ':'

/-- The class `.` without the flag `s`: every character but the line feed. -/
def isDot (c : Char) : Bool := c != '\n'

/-- The group `((.+\n)*)` at the start of a line: `committed` holds the whole lines
taken so far, `cur` the characters of the line being read and `lineStart` the input
from the start of that line. An iteration of `.+\n` takes one non-empty line with its
line feed; the star is greedy and stops at the first line that is empty or has no line
feed. What follows the group is `^\n`, which needs a line feed at the start of a line,
so giving back a line that was taken (the next character is then not a line feed) can
never help. The result is the captured text and the input that is left. -/
def textLinesAux : Str → Str → Str → Str → Str × Str
  | [], committed, _, lineStart => (committed, lineStart)
  | c :: cs, committed, cur, lineStart =>
    if c = '\n' then
      if cur.isEmpty then (committed, c :: cs)
      else textLinesAux cs (committed ++ cur ++ ['\n']) [] cs
    else textLinesAux cs committed (cur ++ [c]) lineStart

/-- The group `((.+\n)*)` read from the start of a line. -/
def textLines (cs : Str) : Str × Str := textLinesAux cs [] [] cs

/-- The four groups `number`, `start`, `end` and `text` of a match of the block pattern. -/
structure BlockMatch where
  number : Str
  start : Str
  stop : Str
  text : Str
  deriving DecidableEq, Repr

/-- A match of the pattern `(?m)(-??\d+)\n([0-9,:]+) --> ([0-9,:]+)\n((.+\n)*)^\n` that
starts at the head of the input, with the input left after it. The lazy `-??` first
tries to take nothing, which fails on a minus sign since `\d+` has to follow, and then
takes the sign. Each `+` group is followed by a character outside its class. The
assertion `^` of the multi-line mode stands right after a line feed and always holds. -/
def matchBlockAt (cs : Str) : Option (BlockMatch × Str) :=
  let sign : Str := if cs.head? == some '-' then ['-'] else []
  let r : Str := if cs.head? == some '-' then cs.tail else cs
  (many1 isDigit r).bind fun (ds, r) =>
  (lit ['\n'] r).bind fun r =>
  (many1 isTimeChar r).bind fun (start, r) =>
  (lit [' ', '-', '-', '>', ' '] r).bind fun r =>
  (many1 isTimeChar r).bind fun (stop, r) =>
  (lit ['\n'] r).bind fun r =>
  (lit ['\n'] (textLines r).2).bind fun r2 =>
  some (⟨sign ++ ds, start, stop, (textLines r).1⟩, r2)

/-- The call `re.FindAllStringSubmatch(str, -1)`: the leftmost match, then the leftmost
match in what follows it, and so on. `skip` counts the characters of the input that
belong to the match found last and are passed over. -/
def findAllFrom : Str → Nat → List BlockMatch
  | [], _ => []
  | _ :: cs, skip + 1 => findAllFrom cs skip
  | c :: cs, 0 =>
    match matchBlockAt (c :: cs) with
    | some (m, rest) => m :: findAllFrom cs (cs.length - rest.length)
    | none => findAllFrom cs 0

/-- All matches of the block pattern in a text. -/
def FindAllStringSubmatch (str : Str) : List BlockMatch := findAllFrom str 0

/-- The loop of `NewSrtFromString` over the matches. -/
def parseLoop : List BlockMatch → Srt → Except SrtError Srt
  | [], srt => .ok srt
  | m :: ms, srt =>
    match NewSubtitleFromString m.number m.start m.stop m.text with
    | .error e => .error e
    | .ok sub =>
      parseLoop ms
        { Subtitles := srt.Subtitles ++ [sub],
          count := if !sub.IsDeleted then srt.count + 1 else srt.count }

/-- The function `NewSrtFromString`. -/
def NewSrtFromString (str : Str) : Except SrtError Srt :=
  parseLoop (FindAllStringSubmatch (str ++ ['\n', '\n'])) { Subtitles := [], count := 0 }

/-- The method `Renumber`: the new collection and the returned number. -/
def Srt.Renumber (s : Srt) : Srt × Int :=
  let r := ForEach (fun i sub (_ : Unit) => ({ sub with Num := i }, (), true)) s.Subtitles ()
  ({ s with Subtitles := r.1 }, r.2.1)

/-- The loop of `DeleteSubtitle` from the index `i`: the slice, `count` and `idx` after it. -/
def deleteSubtitleFrom (num : Int) : List Subtitle → Int → Int → List Subtitle × Int × Int
  | [], _, count => ([], count, -1)
  | sub :: rest, i, count =>
    if sub.Num = num then (sub.MarkAsDeleted :: rest, count - 1, i)
    else
      let r := deleteSubtitleFrom num rest (i + 1) count
      (sub :: r.1, r.2.1, r.2.2)

/-- The method `DeleteSubtitle`: the new collection and the returned index. -/
def Srt.DeleteSubtitle (s : Srt) (num : Int) : Srt × Int :=
  let r := deleteSubtitleFrom num s.Subtitles 0 s.count
  ({ Subtitles := r.1, count := r.2.1 }, r.2.2)

/-- The callback of `TrimTo`; the captured variables are `deleted` and `s.count`. -/
def trimToFn (ms : Nat) (_ : Int) (sub : Subtitle) (st : Int × Int) :
    Subtitle × (Int × Int) × Bool :=
  if sub.StartMs < ms then (sub.MarkAsDeleted, (st.1 + 1, st.2 - 1), true)
  else
    ({ sub with StartMs := sub32 sub.StartMs ms, EndMs := sub32 sub.EndMs ms }, st, true)

/-- The method `TrimTo`: the new collection and the returned number. -/
def Srt.TrimTo (s : Srt) (ms : Nat) : Srt × Int :=
  let r := ForEach (trimToFn ms) s.Subtitles (0, s.count)
  ({ Subtitles := r.1, count := r.2.2.2 }, r.2.2.1)

/-- The callback of `Cut`; the captured variables are `deleted` and `s.count`. -/
def cutFn (start stop : Nat) (_ : Int) (sub : Subtitle) (st : Int × Int) :
    Subtitle × (Int × Int) × Bool :=
  let duration := sub32 stop start
  if sub.StartMs ≥ start && sub.StartMs < stop then
    (sub.MarkAsDeleted, (st.1 + 1, st.2 - 1), true)
  else if sub.StartMs ≥ stop then
    ({ sub with StartMs := sub32 sub.StartMs duration, EndMs := sub32 sub.EndMs duration },
      st, true)
  else (sub, st, true)

/-- The method `Cut`: the new collection and the returned number. -/
def Srt.Cut (s : Srt) (start stop : Nat) : Srt × Int :=
  let r := ForEach (cutFn start stop) s.Subtitles (0, s.count)
  ({ Subtitles := r.1, count := r.2.2.2 }, r.2.2.1)

/-- The callback of `DeleteIf`; the captured variables are `deleted` and `s.count`. -/
def deleteIfFn (judge : Int → Subtitle → Bool) (i : Int) (sub : Subtitle) (st : Int × Int) :
    Subtitle × (Int × Int) × Bool :=
  if judge i sub then (sub.MarkAsDeleted, (st.1 + 1, st.2 - 1), true)
  else (sub, st, true)

/-- The method `DeleteIf`: the new collection and the returned number. -/
def Srt.DeleteIf (s : Srt) (judge : Int → Subtitle → Bool) : Srt × Int :=
  let r := ForEach (deleteIfFn judge) s.Subtitles (0, s.count)
  ({ Subtitles := r.1, count := r.2.2.2 }, r.2.2.1)

/-- The function `unicode.IsSpace`. -/
def isSpace (c : Char) : Bool :=
  c.toNat = 9 || c.toNat = 10 || c.toNat = 11 || c.toNat = 12 || c.toNat = 13
    || c.toNat = 32 || c.toNat = 0x85 || c.toNat = 0xA0 || c.toNat = 0x1680
    || (0x2000 ≤ c.toNat && c.toNat ≤ 0x200A) || c.toNat = 0x2028 || c.toNat = 0x2029
    || c.toNat = 0x202F || c.toNat = 0x205F || c.toNat = 0x3000

/-- The function `strings.TrimSpace`: white space is removed at both ends. -/
def TrimSpace (s : Str) : Str :=
  ((s.dropWhile isSpace).reverse.dropWhile isSpace).reverse

/-- The method `DeleteEmpty`. -/
def Srt.DeleteEmpty (s : Srt) : Srt × Int :=
  s.DeleteIf (fun _ sub => (TrimSpace sub.Text).isEmpty)

/-- The method `DeleteByDuration`; the difference is a `uint32` subtraction. -/
def Srt.DeleteByDuration (s : Srt) (durationMs : Nat) : Srt × Int :=
  s.DeleteIf (fun _ sub => decide (sub32 sub.EndMs sub.StartMs ≤ durationMs))

/-- The comparison handed to `sort.SliceStable`. -/
def less (a b : Subtitle) : Bool := decide (a.StartMs < b.StartMs)

/-- Insertion of an entry in front of an ascending slice: it passes the entries that
are strictly smaller and stops in front of the first one that is not. -/
def insertStable (a : Subtitle) : List Subtitle → List Subtitle
  | [] => [a]
  | b :: l => if less b a then b :: insertStable a l else a :: b :: l

/-- The function `sort.SliceStable` with the comparison `less`: a stable sort in
which an entry moves in front of another one only when it is strictly smaller. -/
def SliceStable : List Subtitle → List Subtitle
  | [] => []
  | a :: l => insertStable a (SliceStable l)

/-- The method `Sort`. -/
def Srt.Sort (s : Srt) : Srt := { s with Subtitles := SliceStable s.Subtitles }

/-- The number of entries of a slice that are not marked as deleted. -/
def liveCount (subs : List Subtitle) : Int :=
  ((subs.filter fun sub => !sub.IsDeleted).length : Int)

/-- The editing operations of a collection. -/
inductive Op where
  | renumber : Op
  | deleteSubtitle (num : Int) : Op
  | trimTo (ms : Nat) : Op
  | cut (start stop : Nat) : Op
  | deleteIf (judge : Int → Subtitle → Bool) : Op
  | deleteEmpty : Op
  | deleteByDuration (durationMs : Nat) : Op
  | sort : Op

/-- The collection after one editing operation. -/
def Op.apply : Op → Srt → Srt
  | .renumber, s => s.Renumber.1
  | .deleteSubtitle num, s => (s.DeleteSubtitle num).1
  | .trimTo ms, s => (s.TrimTo ms).1
  | .cut start stop, s => (s.Cut start stop).1
  | .deleteIf judge, s => (s.DeleteIf judge).1
  | .deleteEmpty, s => s.DeleteEmpty.1
  | .deleteByDuration d, s => (s.DeleteByDuration d).1
  | .sort, s => s.Sort

/-- The collection after a sequence of editing operations, applied from left to right. -/
def applyOps (ops : List Op) (s : Srt) : Srt := ops.foldl (fun s op => op.apply s) s

/-! ## Sample inputs -/

/-- The text of the test `TestSrtString`: blocks numbered 1, 3, -1 and 7. -/
def srtStringInput : Str :=
  ("1\n0:02:21,860 --> 0:02:24,520\n\n3\n0:02:24,520 --> 0:02:27,400\n最初の3つは、\n0+0 = 0\n\n"
    ++ "-1\n0:02:24,520 --> 0:02:27,400\n\n7\n0:02:24,520 --> 0:02:27,400").toList

/-- The text that `TestSrtString` expects. -/
def srtStringExpected : Str :=
  ("1\n0:02:21,860 --> 0:02:24,520\n\n3\n0:02:24,520 --> 0:02:27,400\n最初の3つは、\n0+0 = 0\n\n"
    ++ "7\n0:02:24,520 --> 0:02:27,400\n\n\n").toList

/-- The text of `TestTrimTo`: five cues of ten seconds that start at 0, 10, 30, 50 and
60 seconds. -/
def fiveCues : Str :=
  ("1\n0:00:00,000 --> 0:00:10,000\n\n2\n0:00:10,000 --> 0:00:20,000\n\n"
    ++ "3\n0:00:30,000 --> 0:00:40,000\n\n4\n0:00:50,000 --> 0:01:00,000\n\n"
    ++ "5\n0:01:00,000 --> 0:01:10,000").toList

/-- The collection that `NewSrtFromString` returns on `fiveCues`. -/
def fiveCuesSrt : Srt :=
  { Subtitles := [⟨1, 0, 10000, []⟩, ⟨2, 10000, 20000, []⟩, ⟨3, 30000, 40000, []⟩,
      ⟨4, 50000, 60000, []⟩, ⟨5, 60000, 70000, []⟩],
    count := 5 }

/-- The text of `TestDeleteSubtitle`: blocks numbered 1, 3, 5 and 7. -/
def oddNumbers : Str :=
  ("1\n0:02:21,860 --> 0:02:24,520\n\n3\n0:02:24,520 --> 0:02:27,400\n\n"
    ++ "5\n0:02:24,520 --> 0:02:27,400\n\n7\n0:02:24,520 --> 0:02:27,400").toList

/-- The collection that `NewSrtFromString` returns on `oddNumbers`. -/
def oddNumbersSrt : Srt :=
  { Subtitles := [⟨1, 141860, 144520, []⟩, ⟨3, 144520, 147400, []⟩, ⟨5, 144520, 147400, []⟩,
      ⟨7, 144520, 147400, []⟩],
    count := 4 }

/-- The text of `TestSort`. -/
def sortInput : Str :=
  ("1\n0:00:25,000 --> 0:00:35,000\naaa\n\n2\n0:00:15,000 --> 0:00:25,000\n\n"
    ++ "3\n0:00:10,000 --> 0:00:15,000\n\n4\n0:00:00,000 --> 0:00:10,000\n\n"
    ++ "5\n0:00:35,000 --> 0:00:40,000\n   \n6\n0:00:40,000 --> 0:00:45,000").toList

/-- A text of two well-formed blocks numbered 1 and 2. -/
def twoCues : Str :=
  "1\n0:00:00,000 --> 0:00:10,000\n\n2\n0:00:10,000 --> 0:00:20,000".toList

/-- The collection that `NewSrtFromString` returns on `twoCues`. -/
def twoCuesSrt : Srt :=
  { Subtitles := [⟨1, 0, 10000, []⟩, ⟨2, 10000, 20000, []⟩], count := 2 }

/-- A text of three blocks: the number line of the second one is not an integer and the
timing line of the third one writes its milliseconds after a dot. -/
def malformedBlocks : Str :=
  ("1\n0:00:00,000 --> 0:00:10,000\nfirst\n\ntwo\n0:00:10,000 --> 0:00:20,000\nsecond\n\n"
    ++ "3\n0:00:20.000 --> 0:00:30.000\nthird\n").toList

/-- A text of one block whose start time lacks the milliseconds. -/
def shortTime : Str := "3\n0:00:20 --> 0:00:30,000\nthird\n".toList

/-! ## More inputs of the tests -/

/-- The text of `TestDeleteByDuration`: cues of 10, 5, 10, 10, 5 and 5 seconds. -/
def durationInput : Str :=
  ("1\n0:00:00,000 --> 0:00:10,000\naaa\n\n2\n0:00:10,000 --> 0:00:15,000\n\n"
    ++ "3\n0:00:15,000 --> 0:00:25,000\n\n\n4\n0:00:25,000 --> 0:00:35,000\nbbb\n\n"
    ++ "5\n0:00:35,000 --> 0:00:40,000\n   \n\n6\n0:00:40,000 --> 0:00:45,000").toList

/-- The collection that `NewSrtFromString` returns on `durationInput`. -/
def durationSrt : Srt :=
  { Subtitles := [⟨1, 0, 10000, ['a', 'a', 'a', '\n']⟩, ⟨2, 10000, 15000, []⟩,
      ⟨3, 15000, 25000, []⟩, ⟨4, 25000, 35000, ['b', 'b', 'b', '\n']⟩,
      ⟨5, 35000, 40000, [' ', ' ', ' ', '\n']⟩, ⟨6, 40000, 45000, []⟩],
    count := 6 }

/-- The text of `TestDeleteEmpty`: the texts are `aaa`, none, none, `bbb`, three spaces
and none. -/
def emptyInput : Str :=
  ("1\n0:00:00,000 --> 0:00:10,000\naaa\n\n2\n0:00:10,000 --> 0:00:20,000\n\n"
    ++ "3\n0:00:30,000 --> 0:00:40,000\n\n\n4\n0:00:50,000 --> 0:01:00,000\nbbb\n\n"
    ++ "5\n0:01:00,000 --> 0:01:10,000\n   \n\n6\n0:01:10,000 --> 0:01:20,000").toList

/-- The collection that `NewSrtFromString` returns on `emptyInput`. -/
def emptySrt : Srt :=
  { Subtitles := [⟨1, 0, 10000, ['a', 'a', 'a', '\n']⟩, ⟨2, 10000, 20000, []⟩,
      ⟨3, 30000, 40000, []⟩, ⟨4, 50000, 60000, ['b', 'b', 'b', '\n']⟩,
      ⟨5, 60000, 70000, [' ', ' ', ' ', '\n']⟩, ⟨6, 70000, 80000, []⟩],
    count := 6 }

/-! ## The vocabulary of the statements

The definitions of this section embed no code of the program. They describe inputs
(the shape of a timestamp, of an integer line, of a block and its wire form) and the
record of the calls of a callback, and they are used to state the theorems only. -/

/-- A group of a timestamp: a non-empty run of decimal digits. -/
def isGroup (ds : Str) : Bool := !ds.isEmpty && ds.all isDigit

/-- The text `h:min:sec,ms` made of four groups. -/
def TimeMatch.text (g : TimeMatch) : Str :=
  g.h ++ [':'] ++ g.min ++ [':'] ++ g.sec ++ [','] ++ g.ms

/-- The shape `digits:digits:digits,digits`: each of the four groups is a non-empty run
of decimal digits. -/
def TimeMatch.shaped (g : TimeMatch) : Bool :=
  isGroup g.h && isGroup g.min && isGroup g.sec && isGroup g.ms

/-- An integer line: an optional minus sign and a non-empty run of decimal digits. -/
def isNumberLine (s : Str) : Bool :=
  if s.head? == some '-' then isGroup s.tail else isGroup s

/-- A start or end field as the block pattern takes it: a non-empty run of digits,
commas and colons. -/
def isTimeField (s : Str) : Bool := !s.isEmpty && s.all isTimeChar

/-- A text line: one or more characters, none of them a line feed. -/
def isTextLine (l : Str) : Bool := !l.isEmpty && l.all isDot

/-- The text of a block made of the given lines: every line is followed by a line feed. -/
def linesText (lines : List Str) : Str := (lines.map fun l => l ++ ['\n']).flatten

/-- The wire form of a block with the given four pieces: the number line, the timing
line, the text and the blank line. -/
def BlockMatch.wire (m : BlockMatch) : Str :=
  m.number ++ ['\n'] ++ m.start ++ [' ', '-', '-', '>', ' '] ++ m.stop ++ ['\n'] ++ m.text
    ++ ['\n']

/-- The four pieces have the form that the block pattern takes: the number is an
integer line, the start and the end are runs of digits, commas and colons, and the text
is made of text lines. -/
def BlockMatch.wellFormed (m : BlockMatch) : Prop :=
  isNumberLine m.number = true ∧ isTimeField m.start = true ∧ isTimeField m.stop = true
    ∧ ∃ lines : List Str, lines.all isTextLine = true ∧ m.text = linesText lines

/-- The value of an integer line. -/
def numberValue (s : Str) : Int :=
  if s.head? == some '-' then -(decVal s.tail : Int) else (decVal s : Int)

/-- The value of the four groups of a timestamp as a `uint32`. -/
def TimeMatch.millis (g : TimeMatch) : Nat :=
  (decVal g.ms + decVal g.sec * 1000 + decVal g.min * 60000 + decVal g.h * 3600000)
    % 4294967296

/-- Each of the four groups has a value that fits the type `int`. -/
def TimeMatch.fitsInt (g : TimeMatch) : Bool :=
  decide (decVal g.h < 2 ^ 63) && decide (decVal g.min < 2 ^ 63)
    && decide (decVal g.sec < 2 ^ 63) && decide (decVal g.ms < 2 ^ 63)

/-- A block as the grammar of the input describes it: the integer line, the groups of
the start and of the end time, and the text lines. -/
structure Block where
  number : Str
  start : TimeMatch
  stop : TimeMatch
  lines : List Str

/-- A syntactically valid block: an integer line, two timestamps of the shape
`digits:digits:digits,digits`, and text lines that are not empty. -/
def Block.valid (b : Block) : Bool :=
  isNumberLine b.number && b.start.shaped && b.stop.shaped && b.lines.all isTextLine

/-- The number and the groups of both timestamps of the block fit the type `int`. -/
def Block.fitsInt (b : Block) : Bool :=
  decide (-9223372036854775808 ≤ numberValue b.number)
    && decide (numberValue b.number < 9223372036854775808)
    && b.start.fitsInt && b.stop.fitsInt

/-- The four pieces of the block as text. -/
def Block.pieces (b : Block) : BlockMatch :=
  ⟨b.number, b.start.text, b.stop.text, linesText b.lines⟩

/-- The entry that the block stands for. -/
def Block.entry (b : Block) : Subtitle :=
  ⟨numberValue b.number, b.start.millis, b.stop.millis, linesText b.lines⟩

/-- The pieces from which `String` writes an entry. -/
def Subtitle.pieces (s : Subtitle) : BlockMatch :=
  ⟨Itoa s.Num, MsToSrtFormat s.StartMs, MsToSrtFormat s.EndMs, s.Text⟩

/-! ## More sample inputs -/

/-- The text of `TestNewSrtFromString`: four blocks numbered 35, 36, 36 and 37. -/
def newSrtInput : Str :=
  ("35\n0:02:21,860 --> 0:02:24,520\n入力の組み合わせは4つだけです。\nawef\n\n"
    ++ "36\n0:02:24,520 --> 0:02:27,400\n最初の3つは、\n0+0 = 0\n\n"
    ++ "36\n0:02:24,520 --> 0:02:27,400\n\n"
    ++ "37\n0:02:24,520 --> 0:02:27,400\n最初の3つは、\n0+0 = 0").toList

/-- The collection that `NewSrtFromString` returns on `srtStringInput`. -/
def srtStringSrt : Srt :=
  { Subtitles := [⟨1, 141860, 144520, []⟩,
      ⟨3, 144520, 147400, "最初の3つは、\n0+0 = 0\n".toList⟩,
      ⟨-1, 144520, 147400, []⟩, ⟨7, 144520, 147400, []⟩],
    count := 3 }

/-- The timestamp `0:00:00,000`. -/
def timeZero : TimeMatch := ⟨['0'], ['0', '0'], ['0', '0'], ['0', '0', '0']⟩

/-- The timestamp `0:00:10,000`. -/
def timeTen : TimeMatch := ⟨['0'], ['0', '0'], ['1', '0'], ['0', '0', '0']⟩

/-- Two blocks: the number 7 with the text line `hi`, and the number -1 with no text. -/
def sampleBlocks : List Block :=
  [⟨['7'], timeZero, timeTen, [['h', 'i']]⟩, ⟨['-', '1'], timeTen, timeTen, []⟩]

/-- A block whose number `9223372036854775808` is one above the largest `int`. -/
def bigNumberBlock : Block := ⟨"9223372036854775808".toList, timeZero, timeTen, []⟩

/-- A text with two pieces of the shape of a timestamp: `1:2:3,4` and `5:6:7,8`. -/
def twoTimes : Str := "x1:2:3,4y5:6:7,8".toList

/-! # Theorems -/

/-! ## The loop `ForEach` -/

theorem liveCount_nil : liveCount [] = 0 := rfl

theorem liveCount_cons (sub : Subtitle) (subs : List Subtitle) :
    liveCount (sub :: subs) = (if sub.IsDeleted then 0 else 1) + liveCount subs := by
  unfold liveCount
  by_cases h : sub.IsDeleted = true
  · simp [h]
  · simp [h]; omega

/-- A callback that marks the entries picked by `p` and rewrites the others with `g`,
counting in `deleted` and `s.count`, and always goes on. -/
theorem forEachFrom_edit (p : Subtitle → Bool) (g : Subtitle → Subtitle)
    (fn : Int → Subtitle → Int × Int → Subtitle × (Int × Int) × Bool)
    (hfn : ∀ i sub st, fn i sub st =
      if p sub then (sub.MarkAsDeleted, (st.1 + 1, st.2 - 1), true) else (g sub, st, true))
    (subs : List Subtitle) (idx d c : Int) :
    ForEachFrom fn subs idx (d, c) =
      (subs.map (fun sub =>
          if sub.IsDeleted then sub else if p sub then sub.MarkAsDeleted else g sub),
        idx + liveCount subs,
        (d + ((subs.filter fun sub => !sub.IsDeleted && p sub).length : Int),
          c - ((subs.filter fun sub => !sub.IsDeleted && p sub).length : Int))) := by
  induction subs generalizing idx d c with
  | nil => simp [ForEachFrom, liveCount]
  | cons sub rest ih =>
    by_cases hd : sub.IsDeleted = true
    · simp [ForEachFrom, hd, ih, liveCount_cons]
    · by_cases hp : p sub = true
      · simp [ForEachFrom, hd, hfn, hp, ih, liveCount_cons]
        refine ⟨by omega, by omega, by omega⟩
      · simp [ForEachFrom, hd, hfn, hp, ih, liveCount_cons]
        omega

theorem liveCount_edit (p : Subtitle → Bool) (g : Subtitle → Subtitle)
    (hg : ∀ sub, sub.IsDeleted = false → (g sub).IsDeleted = false) (subs : List Subtitle) :
    liveCount (subs.map fun sub =>
        if sub.IsDeleted then sub else if p sub then sub.MarkAsDeleted else g sub) =
      liveCount subs - ((subs.filter fun sub => !sub.IsDeleted && p sub).length : Int) := by
  induction subs with
  | nil => simp [liveCount]
  | cons sub rest ih =>
    rw [List.map_cons, liveCount_cons, liveCount_cons, ih, List.filter_cons]
    by_cases hd : sub.IsDeleted = true
    · simp only [hd, if_true, Bool.not_true, Bool.false_and, Bool.false_eq_true, if_false]
      omega
    · by_cases hp : p sub = true
      · have hm : sub.MarkAsDeleted.IsDeleted = true := by
          simp [Subtitle.MarkAsDeleted, Subtitle.IsDeleted]
        simp only [Bool.not_eq_true] at hd
        simp only [hd, hp, hm, if_true, Bool.not_false, Bool.true_and, Bool.false_eq_true,
          if_false, List.length_cons]
        push_cast
        omega
      · have := hg sub (by simpa using hd)
        simp only [Bool.not_eq_true] at hd hp
        simp only [hd, hp, this, Bool.not_false, Bool.true_and, Bool.false_eq_true,
          if_false]
        omega

/-! ## Renumber -/

theorem renumber_from (subs : List Subtitle) (idx : Int) (hidx : 0 ≤ idx) :
    (ForEachFrom (fun i sub (_ : Unit) => ({ sub with Num := i }, (), true)) subs idx ()).2.1
        = idx + liveCount subs
    ∧ List.Forall₂ (fun a b => b.StartMs = a.StartMs ∧ b.EndMs = a.EndMs ∧ b.Text = a.Text
          ∧ b.IsDeleted = a.IsDeleted ∧ (a.IsDeleted = true → b = a)) subs
        (ForEachFrom (fun i sub (_ : Unit) => ({ sub with Num := i }, (), true)) subs idx ()).1
    ∧ ((ForEachFrom (fun i sub (_ : Unit) => ({ sub with Num := i }, (), true)) subs idx ()).1.filter
          fun sub => !sub.IsDeleted).map (fun sub => sub.Num)
        = (List.range (subs.filter fun sub => !sub.IsDeleted).length).map
            (fun (j : Nat) => idx + 1 + (j : Int)) := by
  induction subs generalizing idx with
  | nil => simp [ForEachFrom, liveCount]
  | cons sub rest ih =>
    by_cases hd : sub.IsDeleted = true
    · obtain ⟨h1, h2, h3⟩ := ih idx hidx
      simp only [ForEachFrom, hd, if_true, liveCount_cons]
      refine ⟨by rw [h1]; omega, List.Forall₂.cons ⟨rfl, rfl, rfl, rfl, fun _ => rfl⟩ h2, ?_⟩
      simp only [List.filter_cons, hd, Bool.not_true, Bool.false_eq_true, if_false]
      exact h3
    · obtain ⟨h1, h2, h3⟩ := ih (idx + 1) (by omega)
      have hnd : ({ sub with Num := idx + 1 } : Subtitle).IsDeleted = false := by
        simp [Subtitle.IsDeleted]; omega
      simp only [ForEachFrom, hd, liveCount_cons]
      refine ⟨by simp; rw [h1]; omega,
        List.Forall₂.cons ⟨rfl, rfl, rfl, by simp [hnd, hd], fun h => absurd h hd⟩ h2, ?_⟩
      simp only [Bool.false_eq_true, if_false, if_true, List.filter_cons, hnd, Bool.not_false,
        List.map_cons, hd, List.length_cons, List.range_succ_eq_map, List.map_map]
      refine congrArg₂ _ (by simp) ?_
      rw [h3]
      apply List.map_congr_left
      intro j _
      simp
      omega

/-! ## Serialization -/

theorem string_from (subs : List Subtitle) (idx : Int) (sb : Str) :
    (ForEachFrom (fun _ sub (sb : Str) => (sub, sb ++ sub.String, true)) subs idx sb).2.2
      = sb ++ ((subs.filter fun sub => !sub.IsDeleted).map Subtitle.String).flatten := by
  induction subs generalizing idx sb with
  | nil => simp [ForEachFrom]
  | cons sub rest ih =>
    by_cases hd : sub.IsDeleted = true
    · simp [ForEachFrom, hd, ih]
    · simp [ForEachFrom, hd, ih]

/-! ## DeleteSubtitle -/

theorem deleteSubtitleFrom_found (num : Int) (pre : List Subtitle) (sub : Subtitle)
    (post : List Subtitle) (i count : Int) (hpre : ∀ x ∈ pre, x.Num ≠ num)
    (hsub : sub.Num = num) :
    deleteSubtitleFrom num (pre ++ sub :: post) i count
      = (pre ++ sub.MarkAsDeleted :: post, count - 1, i + pre.length) := by
  induction pre generalizing i with
  | nil => simp [deleteSubtitleFrom, hsub]
  | cons x pre ih =>
    have hx : x.Num ≠ num := hpre x (List.mem_cons_self _ _)
    have := ih (i + 1) (fun y hy => hpre y (List.mem_cons_of_mem _ hy))
    simp [deleteSubtitleFrom, hx, this]
    omega

theorem deleteSubtitleFrom_none (num : Int) (subs : List Subtitle) (i count : Int)
    (h : ∀ x ∈ subs, x.Num ≠ num) :
    deleteSubtitleFrom num subs i count = (subs, count, -1) := by
  induction subs generalizing i with
  | nil => simp [deleteSubtitleFrom]
  | cons x rest ih =>
    have hx : x.Num ≠ num := h x (List.mem_cons_self _ _)
    have := ih (i + 1) (fun y hy => h y (List.mem_cons_of_mem _ hy))
    simp [deleteSubtitleFrom, hx, this]

theorem exists_first (num : Int) (subs : List Subtitle) (h : ∃ x ∈ subs, x.Num = num) :
    ∃ pre sub post, subs = pre ++ sub :: post ∧ (∀ x ∈ pre, x.Num ≠ num) ∧ sub.Num = num := by
  induction subs with
  | nil => simp at h
  | cons x rest ih =>
    by_cases hx : x.Num = num
    · exact ⟨[], x, rest, rfl, by simp, hx⟩
    · obtain ⟨y, hy, hyn⟩ := h
      have hy2 : y ∈ rest := by
        rcases List.mem_cons.mp hy with h1 | h1
        · exact absurd (h1 ▸ hyn) hx
        · exact h1
      obtain ⟨pre, sub, post, h1, h2, h3⟩ := ih ⟨y, hy2, hyn⟩
      refine ⟨x :: pre, sub, post, by simp [h1], ?_, h3⟩
      intro z hz
      rcases List.mem_cons.mp hz with h4 | h4
      · exact h4 ▸ hx
      · exact h2 z h4

/-! ## Sort -/

theorem insertStable_perm (a : Subtitle) (l : List Subtitle) :
    List.Perm (insertStable a l) (a :: l) := by
  induction l with
  | nil => simp [insertStable]
  | cons b l ih =>
    unfold insertStable
    by_cases h : less b a = true
    · simp only [h, if_true]
      exact (List.Perm.cons b ih).trans (List.Perm.swap a b l)
    · simp [h]

theorem sliceStable_perm (l : List Subtitle) : List.Perm (SliceStable l) l := by
  induction l with
  | nil => simp [SliceStable]
  | cons a l ih => exact (insertStable_perm a _).trans (List.Perm.cons a ih)

theorem insertStable_sorted (a : Subtitle) (l : List Subtitle)
    (h : List.Pairwise (fun x y => x.StartMs ≤ y.StartMs) l) :
    List.Pairwise (fun x y => x.StartMs ≤ y.StartMs) (insertStable a l) := by
  induction l with
  | nil => simp [insertStable]
  | cons b l ih =>
    unfold insertStable
    rw [List.pairwise_cons] at h
    by_cases hb : less b a = true
    · simp only [hb, if_true]
      have hba : b.StartMs < a.StartMs := by simpa [less] using hb
      rw [List.pairwise_cons]
      refine ⟨?_, ih h.2⟩
      intro y hy
      rcases List.mem_cons.mp ((insertStable_perm a l).subset hy) with h1 | h1
      · rw [h1]; omega
      · exact h.1 y h1
    · simp only [Bool.not_eq_true] at hb
      simp only [hb, Bool.false_eq_true, if_false]
      have hab : a.StartMs ≤ b.StartMs := by
        simp [less] at hb; exact hb
      rw [List.pairwise_cons]
      refine ⟨?_, List.pairwise_cons.mpr h⟩
      intro y hy
      rcases List.mem_cons.mp hy with h1 | h1
      · rw [h1]; exact hab
      · exact le_trans hab (h.1 y h1)

theorem sliceStable_sorted (l : List Subtitle) :
    List.Pairwise (fun x y => x.StartMs ≤ y.StartMs) (SliceStable l) := by
  induction l with
  | nil => simp [SliceStable]
  | cons a l ih => exact insertStable_sorted a _ ih

theorem insertStable_filter (v : Nat) (a : Subtitle) (l : List Subtitle) :
    (insertStable a l).filter (fun x => decide (x.StartMs = v))
      = (a :: l).filter (fun x => decide (x.StartMs = v)) := by
  induction l with
  | nil => simp [insertStable]
  | cons b l ih =>
    unfold insertStable
    by_cases hb : less b a = true
    · have hba : b.StartMs < a.StartMs := by simpa [less] using hb
      simp only [hb, if_true, List.filter_cons, ih]
      by_cases h1 : a.StartMs = v <;> by_cases h2 : b.StartMs = v <;> simp [h1, h2]
      omega
    · simp [hb]

theorem sliceStable_filter (v : Nat) (l : List Subtitle) :
    (SliceStable l).filter (fun x => decide (x.StartMs = v))
      = l.filter (fun x => decide (x.StartMs = v)) := by
  induction l with
  | nil => simp [SliceStable]
  | cons a l ih =>
    unfold SliceStable
    rw [insertStable_filter, List.filter_cons, List.filter_cons, ih]

/-! ## TrimTo and Cut -/

theorem trimToFn_eq (ms : Nat) (i : Int) (sub : Subtitle) (st : Int × Int) :
    trimToFn ms i sub st =
      if (decide (sub.StartMs < ms)) = true then (sub.MarkAsDeleted, (st.1 + 1, st.2 - 1), true)
      else
        ({ sub with StartMs := sub32 sub.StartMs ms, EndMs := sub32 sub.EndMs ms }, st, true) := by
  unfold trimToFn
  by_cases h : sub.StartMs < ms <;> simp [h]

theorem cutFn_eq (start stop : Nat) (i : Int) (sub : Subtitle) (st : Int × Int) :
    cutFn start stop i sub st =
      if (decide (start ≤ sub.StartMs) && decide (sub.StartMs < stop)) = true then
        (sub.MarkAsDeleted, (st.1 + 1, st.2 - 1), true)
      else
        (if stop ≤ sub.StartMs then
          { sub with StartMs := sub32 sub.StartMs (sub32 stop start),
                     EndMs := sub32 sub.EndMs (sub32 stop start) } else sub, st, true) := by
  unfold cutFn
  by_cases h1 : start ≤ sub.StartMs <;> by_cases h2 : sub.StartMs < stop <;>
    by_cases h3 : stop ≤ sub.StartMs <;> simp [h1, h2, h3]

theorem trimTo_run (s : Srt) (ms : Nat) :
    s.TrimTo ms =
      ({ Subtitles := s.Subtitles.map fun sub =>
            if sub.IsDeleted then sub
            else if (decide (sub.StartMs < ms)) = true then sub.MarkAsDeleted
            else { sub with StartMs := sub32 sub.StartMs ms, EndMs := sub32 sub.EndMs ms },
         count := s.count - ((s.Subtitles.filter fun sub =>
            !sub.IsDeleted && decide (sub.StartMs < ms)).length : Int) },
        ((s.Subtitles.filter fun sub =>
            !sub.IsDeleted && decide (sub.StartMs < ms)).length : Int)) := by
  unfold Srt.TrimTo ForEach
  rw [forEachFrom_edit (fun sub => decide (sub.StartMs < ms))
    (fun sub => { sub with StartMs := sub32 sub.StartMs ms, EndMs := sub32 sub.EndMs ms })
    (trimToFn ms) (trimToFn_eq ms) s.Subtitles 0 0 s.count]
  simp only [zero_add]

theorem cut_run (s : Srt) (start stop : Nat) :
    s.Cut start stop =
      ({ Subtitles := s.Subtitles.map fun sub =>
            if sub.IsDeleted then sub
            else if (decide (start ≤ sub.StartMs) && decide (sub.StartMs < stop)) = true then
              sub.MarkAsDeleted
            else if stop ≤ sub.StartMs then
              { sub with StartMs := sub32 sub.StartMs (sub32 stop start),
                         EndMs := sub32 sub.EndMs (sub32 stop start) }
            else sub,
         count := s.count - ((s.Subtitles.filter fun sub =>
            !sub.IsDeleted && (decide (start ≤ sub.StartMs) && decide (sub.StartMs < stop))).length
              : Int) },
        ((s.Subtitles.filter fun sub =>
            !sub.IsDeleted && (decide (start ≤ sub.StartMs) && decide (sub.StartMs < stop))).length
              : Int)) := by
  unfold Srt.Cut ForEach
  rw [forEachFrom_edit (fun sub => decide (start ≤ sub.StartMs) && decide (sub.StartMs < stop))
    (fun sub => if stop ≤ sub.StartMs then
      { sub with StartMs := sub32 sub.StartMs (sub32 stop start),
                 EndMs := sub32 sub.EndMs (sub32 stop start) } else sub)
    (cutFn start stop) (cutFn_eq start stop) s.Subtitles 0 0 s.count]
  simp only [zero_add]

/-! ## Decimal digits -/

theorem decVal_append_singleton (ds : Str) (c : Char) :
    decVal (ds ++ [c]) = decVal ds * 10 + (c.toNat - 48) := by
  simp [decVal, List.foldl_append]

theorem digitChar_spec (k : Nat) (hk : k < 10) :
    isDigit (Nat.digitChar k) = true ∧ (Nat.digitChar k).toNat - 48 = k := by
  interval_cases k <;> decide

theorem toDigitsCore_spec (fuel n : Nat) (ds : Str) (h : n < fuel) :
    ∃ pre : Str, Nat.toDigitsCore 10 fuel n ds = pre ++ ds ∧ pre.all isDigit = true
      ∧ pre ≠ [] ∧ decVal pre = n := by
  induction fuel generalizing n ds with
  | zero => omega
  | succ fuel ih =>
    have hd := digitChar_spec (n % 10) (Nat.mod_lt _ (by decide))
    unfold Nat.toDigitsCore
    by_cases h0 : n / 10 = 0
    · refine ⟨[Nat.digitChar (n % 10)], by simp [h0], by simp [hd.1], by simp, ?_⟩
      simp [decVal, hd.2]
      omega
    · obtain ⟨pre, h1, h2, h3, h4⟩ := ih (n / 10) (Nat.digitChar (n % 10) :: ds) (by omega)
      refine ⟨pre ++ [Nat.digitChar (n % 10)], by simp [h0, h1], ?_, by simp, ?_⟩
      · simp only [List.all_append, h2, List.all_cons, hd.1, List.all_nil]; rfl
      · rw [decVal_append_singleton, h4, hd.2]
        omega

theorem fmtV_spec (n : Nat) :
    (fmtV n).all isDigit = true ∧ fmtV n ≠ [] ∧ decVal (fmtV n) = n := by
  obtain ⟨pre, h1, h2, h3, h4⟩ := toDigitsCore_spec (n + 1) n [] (by omega)
  have : fmtV n = pre := by simp [fmtV, Nat.toDigits, h1]
  rw [this]
  exact ⟨h2, h3, h4⟩

theorem decVal_zeros (k : Nat) (ds : Str) : decVal (List.replicate k '0' ++ ds) = decVal ds := by
  induction k with
  | zero => simp
  | succ k ih =>
    have : ∀ (l : Str) (acc : Nat),
        List.foldl (fun acc c => acc * 10 + (c.toNat - 48)) acc l
          = acc * 10 ^ l.length + List.foldl (fun acc c => acc * 10 + (c.toNat - 48)) 0 l := by
      intro l
      induction l with
      | nil => simp
      | cons c l ihl =>
        intro acc
        simp only [List.foldl_cons, List.length_cons]
        rw [ihl (acc * 10 + (c.toNat - 48)), ihl (0 * 10 + (c.toNat - 48))]
        ring
    simp only [decVal] at ih ⊢
    rw [List.replicate_succ, List.cons_append, List.foldl_cons]
    have h0 : (0 * 10 + (('0' : Char).toNat - 48)) = 0 := by decide
    rw [h0]
    exact ih

theorem padZero_spec (w n : Nat) :
    (padZero w (fmtV n)).all isDigit = true ∧ padZero w (fmtV n) ≠ []
      ∧ decVal (padZero w (fmtV n)) = n := by
  obtain ⟨h1, h2, h3⟩ := fmtV_spec n
  refine ⟨?_, ?_, ?_⟩
  · unfold padZero
    rw [List.all_append, h1, Bool.and_true, List.all_eq_true]
    intro c hc
    rw [List.eq_of_mem_replicate hc]
    decide
  · unfold padZero
    intro h
    exact h2 (List.append_eq_nil.mp h).2
  · unfold padZero
    rw [decVal_zeros, h3]

/-! ## The two patterns on well-formed input -/

theorem takeWhile_run (p : Char → Bool) (ds rest : Str) (hds : ds.all p = true)
    (hrest : rest.head?.all (fun c => !p c) = true) :
    (ds ++ rest).takeWhile p = ds ∧ (ds ++ rest).dropWhile p = rest := by
  induction ds with
  | nil =>
    cases rest with
    | nil => simp
    | cons c r =>
      have : p c = false := by simpa using hrest
      simp [List.takeWhile, List.dropWhile, this]
  | cons d ds ih =>
    simp only [List.all_cons, Bool.and_eq_true] at hds
    have := ih hds.2
    simp [List.takeWhile, List.dropWhile, hds.1, this]

theorem many1_run (p : Char → Bool) (ds rest : Str) (hds : ds.all p = true) (hne : ds ≠ [])
    (hrest : rest.head?.all (fun c => !p c) = true) :
    many1 p (ds ++ rest) = some (ds, rest) := by
  obtain ⟨h1, h2⟩ := takeWhile_run p ds rest hds hrest
  unfold many1
  rw [h1, h2]
  cases ds with
  | nil => exact absurd rfl hne
  | cons d ds => rfl

theorem matchTimeAt_groups (h m s ms : Str)
    (hh : h.all isDigit = true) (hh0 : h ≠ []) (hm : m.all isDigit = true) (hm0 : m ≠ [])
    (hs : s.all isDigit = true) (hs0 : s ≠ []) (hms : ms.all isDigit = true) (hms0 : ms ≠ []) :
    matchTimeAt (h ++ [':'] ++ m ++ [':'] ++ s ++ [','] ++ ms) = some ⟨h, m, s, ms⟩ := by
  unfold matchTimeAt
  have e1 : h ++ [':'] ++ m ++ [':'] ++ s ++ [','] ++ ms
      = h ++ (':' :: (m ++ (':' :: (s ++ (',' :: (ms ++ [])))))) := by simp
  rw [e1, many1_run isDigit h (':' :: (m ++ (':' :: (s ++ (',' :: (ms ++ [])))))) hh hh0 rfl]
  simp only [Option.bind, lit, List.isPrefixOf, beq_self_eq_true, Bool.true_and, if_true,
    List.length_cons, List.length_nil, List.drop_succ_cons, List.drop_zero]
  rw [many1_run isDigit m (':' :: (s ++ (',' :: (ms ++ [])))) hm hm0 rfl]
  simp only [Option.bind, lit, List.isPrefixOf, beq_self_eq_true, Bool.true_and, if_true,
    List.length_cons, List.length_nil, List.drop_succ_cons, List.drop_zero]
  rw [many1_run isDigit s (',' :: (ms ++ [])) hs hs0 rfl]
  simp only [Option.bind, lit, List.isPrefixOf, beq_self_eq_true, Bool.true_and, if_true,
    List.length_cons, List.length_nil, List.drop_succ_cons, List.drop_zero]
  rw [many1_run isDigit ms [] hms hms0 rfl]

theorem findTime_groups (h m s ms : Str)
    (hh : h.all isDigit = true) (hh0 : h ≠ []) (hm : m.all isDigit = true) (hm0 : m ≠ [])
    (hs : s.all isDigit = true) (hs0 : s ≠ []) (hms : ms.all isDigit = true) (hms0 : ms ≠ []) :
    findTime (h ++ [':'] ++ m ++ [':'] ++ s ++ [','] ++ ms) = some ⟨h, m, s, ms⟩ := by
  have hmatch := matchTimeAt_groups h m s ms hh hh0 hm hm0 hs hs0 hms hms0
  cases h with
  | nil => exact absurd rfl hh0
  | cons c cs =>
    simp only [List.cons_append] at hmatch ⊢
    unfold findTime
    rw [hmatch]

theorem Atoi_digits (ds : Str) (hds : ds.all isDigit = true) (hne : ds ≠ [])
    (hlt : decVal ds < 2 ^ 63) : Atoi ds = .ok (decVal ds : Int) := by
  cases ds with
  | nil => exact absurd rfl hne
  | cons c cs =>
    have hc : isDigit c = true := by
      simp only [List.all_cons, Bool.and_eq_true] at hds
      exact hds.1
    have h1 : c ≠ '-' := by
      intro h; rw [h] at hc; exact absurd hc (by decide)
    have h2 : c ≠ '+' := by
      intro h; rw [h] at hc; exact absurd hc (by decide)
    have e1 : (some c == some '-') = false := by simp [h1]
    have e2 : (some c == some '+') = false := by simp [h2]
    have e3 : (2 : Nat) ^ (64 - 1) = 2 ^ 63 := rfl
    unfold Atoi
    simp only [List.head?_cons, e1, e2, Bool.or_self, Bool.false_eq_true, if_false, hds,
      Bool.not_true, List.isEmpty_cons, intSize, e3, hlt, if_true]

theorem toUint32_natCast (n : Nat) : toUint32 (n : Int) = n % 4294967296 := by
  unfold toUint32
  omega

theorem toMillis_natCast (h m s ms : Nat) :
    toMillis (h : Int) (m : Int) (s : Int) (ms : Int)
      = (ms + s * 1000 + m * 60000 + h * 3600000) % 4294967296 := by
  unfold toMillis
  simp only [toUint32_natCast, u32]
  omega

theorem millis_groups (h m s ms : Str)
    (hh : h.all isDigit = true) (hh0 : h ≠ []) (hm : m.all isDigit = true) (hm0 : m ≠ [])
    (hs : s.all isDigit = true) (hs0 : s ≠ []) (hms : ms.all isDigit = true) (hms0 : ms ≠ [])
    (bh : decVal h < 2 ^ 63) (bm : decVal m < 2 ^ 63) (bs : decVal s < 2 ^ 63)
    (bms : decVal ms < 2 ^ 63) :
    MillisFromSrtFormat (h ++ [':'] ++ m ++ [':'] ++ s ++ [','] ++ ms)
      = .ok ((decVal ms + decVal s * 1000 + decVal m * 60000 + decVal h * 3600000)
          % 4294967296) := by
  unfold MillisFromSrtFormat
  rw [findTime_groups h m s ms hh hh0 hm hm0 hs hs0 hms hms0]
  simp only [Atoi_digits h hh hh0 bh, Atoi_digits m hm hm0 bm, Atoi_digits s hs hs0 bs,
    Atoi_digits ms hms hms0 bms, toMillis_natCast]

theorem roundtrip_u32 (t : Nat) (ht : t < 4294967296) :
    MillisFromSrtFormat (MsToSrtFormat t) = .ok t := by
  unfold MsToSrtFormat
  obtain ⟨a1, a2, a3⟩ := fmtV_spec (t / (1000 * 60 * 60))
  obtain ⟨b1, b2, b3⟩ := padZero_spec 2 (t % (1000 * 60 * 60) / (1000 * 60))
  obtain ⟨c1, c2, c3⟩ := padZero_spec 2 (t % (1000 * 60 * 60) % (1000 * 60) / 1000)
  obtain ⟨d1, d2, d3⟩ := padZero_spec 3 (t % (1000 * 60 * 60) % (1000 * 60) % 1000)
  simp only []
  rw [millis_groups _ _ _ _ a1 a2 b1 b2 c1 c2 d1 d2 (by rw [a3]; omega) (by rw [b3]; omega)
    (by rw [c3]; omega) (by rw [d3]; omega), a3, b3, c3, d3]
  congr 1
  omega

/-! ## The cached count -/

theorem liveCount_append (l₁ l₂ : List Subtitle) :
    liveCount (l₁ ++ l₂) = liveCount l₁ + liveCount l₂ := by
  simp [liveCount]

theorem liveCount_of_forall₂ (l₁ l₂ : List Subtitle)
    (h : List.Forall₂ (fun a b => b.IsDeleted = a.IsDeleted) l₁ l₂) :
    liveCount l₂ = liveCount l₁ := by
  induction h with
  | nil => rfl
  | cons hab _ ih => rw [liveCount_cons, liveCount_cons, ih, hab]

theorem countSubtitle_eq (s : Srt) : s.countSubtitle = liveCount s.Subtitles := by
  have key : ∀ (subs : List Subtitle) (cnt : Int),
      subs.foldl (fun cnt sub => if (!sub.IsDeleted) = true then cnt + 1 else cnt) cnt
        = cnt + liveCount subs := by
    intro subs
    induction subs with
    | nil => intro cnt; simp [liveCount]
    | cons sub rest ih =>
      intro cnt
      rw [List.foldl_cons, ih, liveCount_cons]
      by_cases hd : sub.IsDeleted = true
      · simp [hd]
      · simp [hd]; omega
  unfold Srt.countSubtitle
  rw [key]
  omega

theorem liveCount_perm (l₁ l₂ : List Subtitle) (h : List.Perm l₁ l₂) :
    liveCount l₁ = liveCount l₂ := by
  unfold liveCount
  rw [(h.filter _).length_eq]

theorem parseLoop_count (ms : List BlockMatch) (srt s : Srt) (h : parseLoop ms srt = .ok s) :
    s.count - liveCount s.Subtitles = srt.count - liveCount srt.Subtitles := by
  induction ms generalizing srt with
  | nil =>
    simp only [parseLoop, Except.ok.injEq] at h
    rw [h]
  | cons m ms ih =>
    unfold parseLoop at h
    cases hsub : NewSubtitleFromString m.number m.start m.stop m.text with
    | error e => rw [hsub] at h; cases h
    | ok sub =>
      rw [hsub] at h
      have := ih _ h
      rw [this]
      simp only [liveCount_append, liveCount_cons, liveCount_nil]
      by_cases hd : sub.IsDeleted = true
      · simp [hd]
      · simp [hd]

theorem newSrt_count (str : Str) (s : Srt) (h : NewSrtFromString str = .ok s) :
    s.GetCount = liveCount s.Subtitles := by
  have := parseLoop_count _ _ _ h
  simp only [liveCount_nil] at this
  unfold Srt.GetCount
  omega

theorem deleteIf_from_count (judge : Int → Subtitle → Bool) (subs : List Subtitle)
    (idx d c : Int) :
    (ForEachFrom (deleteIfFn judge) subs idx (d, c)).2.2.2
        - liveCount (ForEachFrom (deleteIfFn judge) subs idx (d, c)).1
      = c - liveCount subs := by
  induction subs generalizing idx d c with
  | nil => simp [ForEachFrom]
  | cons sub rest ih =>
    by_cases hd : sub.IsDeleted = true
    · simp only [ForEachFrom, hd, if_true, liveCount_cons]
      have := ih idx d c
      omega
    · by_cases hj : judge (idx + 1) sub = true
      · have hm : sub.MarkAsDeleted.IsDeleted = true := by
          simp [Subtitle.MarkAsDeleted, Subtitle.IsDeleted]
        have := ih (idx + 1) (d + 1) (c - 1)
        simp only [ForEachFrom, hd, deleteIfFn, hj, if_true, liveCount_cons, hm,
          Bool.false_eq_true, if_false]
        omega
      · have := ih (idx + 1) d c
        simp only [ForEachFrom, hd, deleteIfFn, hj, liveCount_cons, Bool.false_eq_true,
          if_false, if_true]
        omega

theorem deleteIf_count (s : Srt) (judge : Int → Subtitle → Bool)
    (h : s.count = liveCount s.Subtitles) :
    (s.DeleteIf judge).1.count = liveCount (s.DeleteIf judge).1.Subtitles := by
  have := deleteIf_from_count judge s.Subtitles 0 0 s.count
  unfold Srt.DeleteIf ForEach
  simp only []
  omega

theorem op_count (op : Op) (s : Srt) (hop : op ≠ .deleteSubtitle (-1))
    (h : s.count = liveCount s.Subtitles) :
    (op.apply s).count = liveCount (op.apply s).Subtitles := by
  cases op with
  | renumber =>
    obtain ⟨_, h2, _⟩ := renumber_from s.Subtitles 0 (le_refl 0)
    have := liveCount_of_forall₂ _ _ (h2.imp (fun _ _ hab => hab.2.2.2.1))
    simp only [Op.apply, Srt.Renumber, ForEach]
    rw [this, h]
  | deleteSubtitle num =>
    have hnum : num ≠ -1 := fun hn => hop (by rw [hn])
    simp only [Op.apply, Srt.DeleteSubtitle]
    by_cases hex : ∃ x ∈ s.Subtitles, x.Num = num
    · obtain ⟨pre, sub, post, h1, h2, h3⟩ := exists_first num s.Subtitles hex
      rw [h1, deleteSubtitleFrom_found num pre sub post 0 s.count h2 h3]
      rw [h1] at h
      have hm : sub.MarkAsDeleted.IsDeleted = true := by
        simp [Subtitle.MarkAsDeleted, Subtitle.IsDeleted]
      have hs : sub.IsDeleted = false := by
        simp [Subtitle.IsDeleted, h3, hnum]
      simp only [liveCount_append, liveCount_cons, hm, hs] at h ⊢
      simp only [Bool.false_eq_true, if_false, if_true] at h ⊢
      omega
    · rw [deleteSubtitleFrom_none num s.Subtitles 0 s.count
        (fun x hx hxn => hex ⟨x, hx, hxn⟩)]
      exact h
  | trimTo ms =>
    have h2 := liveCount_edit (fun sub => decide (sub.StartMs < ms))
      (fun sub => { sub with StartMs := sub32 sub.StartMs ms, EndMs := sub32 sub.EndMs ms })
      (fun sub hs => hs) s.Subtitles
    simp only [Op.apply, trimTo_run, h2]
    omega
  | cut start stop =>
    have h2 := liveCount_edit
      (fun sub => decide (start ≤ sub.StartMs) && decide (sub.StartMs < stop))
      (fun sub => if stop ≤ sub.StartMs then
        { sub with StartMs := sub32 sub.StartMs (sub32 stop start),
                   EndMs := sub32 sub.EndMs (sub32 stop start) } else sub)
      (fun sub hs => by dsimp only; split <;> exact hs) s.Subtitles
    simp only [Op.apply, cut_run, h2]
    omega
  | deleteIf judge => exact deleteIf_count s judge h
  | deleteEmpty => exact deleteIf_count s _ h
  | deleteByDuration d => exact deleteIf_count s _ h
  | sort =>
    simp only [Op.apply, Srt.Sort]
    rw [liveCount_perm _ _ (sliceStable_perm s.Subtitles)]
    exact h

/-- The cached count equals the number of entries that are not marked as deleted after
every sequence of editing operations in which `DeleteSubtitle` is never called with the
number -1 that marks a deleted entry. -/
theorem count_invariant_without_sentinel (str : Str) (s : Srt) (ops : List Op)
    (hs : NewSrtFromString str = .ok s) (hops : ∀ op ∈ ops, op ≠ .deleteSubtitle (-1)) :
    (applyOps ops s).GetCount = liveCount (applyOps ops s).Subtitles := by
  have h0 : s.count = liveCount s.Subtitles := newSrt_count str s hs
  clear hs
  induction ops generalizing s with
  | nil => exact h0
  | cons op ops ih =>
    simp only [applyOps, List.foldl_cons]
    exact ih (op.apply s) (fun o ho => hops o (List.mem_cons_of_mem _ ho))
      (op_count op s (hops op (List.mem_cons_self _ _)) h0)

/-! ## Parsing: when it fails -/

theorem newSubtitle_error_iff (m : BlockMatch) :
    (∃ e, NewSubtitleFromString m.number m.start m.stop m.text = .error e) ↔
      ((∃ e, Atoi m.number = .error e) ∨ (∃ e, MillisFromSrtFormat m.start = .error e)
        ∨ (∃ e, MillisFromSrtFormat m.stop = .error e)) := by
  unfold NewSubtitleFromString
  cases h1 : Atoi m.number with
  | error e => simp
  | ok n =>
    cases h2 : MillisFromSrtFormat m.start with
    | error e => simp
    | ok a =>
      cases h3 : MillisFromSrtFormat m.stop with
      | error e => simp
      | ok b => simp

theorem parseLoop_error_iff (ms : List BlockMatch) (srt : Srt) :
    (∃ e, parseLoop ms srt = .error e) ↔
      ∃ m ∈ ms, ∃ e, NewSubtitleFromString m.number m.start m.stop m.text = .error e := by
  induction ms generalizing srt with
  | nil => simp [parseLoop]
  | cons m ms ih =>
    unfold parseLoop
    cases h : NewSubtitleFromString m.number m.start m.stop m.text with
    | error e => simp [h]
    | ok sub =>
      simp only [ih, List.mem_cons, exists_eq_or_imp, h]
      simp

/-! ## Concrete runs -/

set_option maxRecDepth 1000000 in
theorem srtString_run : (NewSrtFromString srtStringInput).map Srt.String = .ok srtStringExpected := by
  decide

set_option maxRecDepth 1000000 in
theorem fiveCues_run : NewSrtFromString fiveCues = .ok fiveCuesSrt := by decide

set_option maxRecDepth 1000000 in
theorem oddNumbers_run : NewSrtFromString oddNumbers = .ok oddNumbersSrt := by decide

set_option maxRecDepth 1000000 in
theorem twoCues_run : NewSrtFromString twoCues = .ok twoCuesSrt := by decide

set_option maxRecDepth 1000000 in
theorem sortInput_run :
    (NewSrtFromString sortInput).map
        (fun s => s.Sort.Subtitles.map fun sub => (sub.Num, sub.StartMs))
      = .ok [(4, 0), (3, 10000), (2, 15000), (1, 25000), (5, 35000)] := by decide

set_option maxRecDepth 1000000 in
theorem malformedBlocks_run :
    NewSrtFromString malformedBlocks
      = .ok { Subtitles := [⟨1, 0, 10000, ['f', 'i', 'r', 's', 't', '\n']⟩], count := 1 } := by
  decide

set_option maxRecDepth 1000000 in
theorem shortTime_run :
    (⟨['3'], ['0', ':', '0', '0', ':', '2', '0'],
        ['0', ':', '0', '0', ':', '3', '0', ',', '0', '0', '0'],
        ['t', 'h', 'i', 'r', 'd', '\n']⟩ : BlockMatch)
      ∈ FindAllStringSubmatch (shortTime ++ ['\n', '\n'])
    ∧ MillisFromSrtFormat ['0', ':', '0', '0', ':', '2', '0']
        = .error (.wrongFormat ['0', ':', '0', '0', ':', '2', '0']) := by
  decide

/-! ## The claims -/

/-- C1 (the code departs from the claim). The text `twoCues` holds two well-formed blocks
numbered 1 and 2. After `DeleteSubtitle(1)` and `DeleteSubtitle(-1)` the cached count is
0 although one entry is not marked as deleted: the second call finds the entry that the
first call marked with -1 and lowers the count once more. -/
theorem count_off_after_sentinel_delete :
    NewSrtFromString twoCues = .ok twoCuesSrt
    ∧ (applyOps [.deleteSubtitle 1, .deleteSubtitle (-1)] twoCuesSrt).GetCount = 0
    ∧ liveCount (applyOps [.deleteSubtitle 1, .deleteSubtitle (-1)] twoCuesSrt).Subtitles = 1
    ∧ (applyOps [.deleteSubtitle 1, .deleteSubtitle (-1)] twoCuesSrt).Subtitles.map
        (fun sub => sub.IsDeleted) = [true, false] :=
  ⟨twoCues_run, by decide, by decide, by decide⟩

/-- C2. For every `t` from 0 to 99 h 59 min 59 s 999 ms, `MillisFromSrtFormat` succeeds on
`MsToSrtFormat t` and returns `t`. -/
theorem timestamp_round_trip (t : Nat)
    (ht : t ≤ 99 * 3600000 + 59 * 60000 + 59 * 1000 + 999) :
    MillisFromSrtFormat (MsToSrtFormat t) = .ok t :=
  roundtrip_u32 t (by omega)

/-- Witness of C2 at `t = 7690089`, the time `2:08:10,089` of `TestMsToSrtFormat`. -/
theorem timestamp_round_trip_witness :
    7690089 ≤ 99 * 3600000 + 59 * 60000 + 59 * 1000 + 999
    ∧ MillisFromSrtFormat (MsToSrtFormat 7690089) = .ok 7690089 :=
  ⟨by decide, timestamp_round_trip 7690089 (by decide)⟩

/-- C3. After `Renumber` the numbers of the entries that are not deleted are 1, 2, ..., k
in sequence order, where k is the number of such entries (before and after the call);
`Renumber` returns k; every entry keeps `StartMs`, `EndMs`, `Text` and its deleted state,
every deleted entry is unchanged, and the cached count is unchanged. -/
theorem renumber_spec (s : Srt) :
    ((s.Renumber.1.Subtitles.filter fun sub => !sub.IsDeleted).map fun sub => sub.Num)
        = (List.range (s.Subtitles.filter fun sub => !sub.IsDeleted).length).map
            (fun (j : Nat) => (j : Int) + 1)
    ∧ s.Renumber.2 = liveCount s.Subtitles
    ∧ liveCount s.Renumber.1.Subtitles = liveCount s.Subtitles
    ∧ List.Forall₂ (fun a b => b.StartMs = a.StartMs ∧ b.EndMs = a.EndMs ∧ b.Text = a.Text
          ∧ b.IsDeleted = a.IsDeleted ∧ (a.IsDeleted = true → b = a))
        s.Subtitles s.Renumber.1.Subtitles
    ∧ s.Renumber.1.GetCount = s.GetCount := by
  obtain ⟨h1, h2, h3⟩ := renumber_from s.Subtitles 0 (le_refl 0)
  refine ⟨?_, ?_, ?_, h2, rfl⟩
  · simp only [Srt.Renumber, ForEach]
    rw [h3]
    apply List.map_congr_left
    intro j _
    omega
  · simp only [Srt.Renumber, ForEach]
    rw [h1]
    omega
  · exact liveCount_of_forall₂ _ _ (h2.imp (fun _ _ hab => hab.2.2.2.1))

/-- C4. The text of a collection is the concatenation, over the entries that are not
deleted and in sequence order, of the number, a line feed, the start time, ` --> `, the
end time, a line feed, the text and a line feed, followed by one more line feed. Deleted
entries add nothing: the text is that of the collection of the live entries alone. The
blocks numbered 1, 3, -1 and 7 of `TestSrtString` render as the blocks 1, 3 and 7. -/
theorem srt_string_spec (s : Srt) :
    s.String = ((s.Subtitles.filter fun sub => !sub.IsDeleted).map fun sub =>
        Itoa sub.Num ++ ['\n'] ++ MsToSrtFormat sub.StartMs ++ [' ', '-', '-', '>', ' ']
          ++ MsToSrtFormat sub.EndMs ++ ['\n'] ++ sub.Text ++ ['\n']).flatten ++ ['\n']
    ∧ (∀ c : Int, s.String
        = Srt.String { Subtitles := s.Subtitles.filter fun sub => !sub.IsDeleted, count := c })
    ∧ (NewSrtFromString srtStringInput).map Srt.String = .ok srtStringExpected := by
  have key : ∀ subs : List Subtitle,
      (ForEach (fun _ sub (sb : Str) => (sub, sb ++ sub.String, true)) subs []).2.2
        = ((subs.filter fun sub => !sub.IsDeleted).map Subtitle.String).flatten := by
    intro subs
    unfold ForEach
    rw [string_from]
    rfl
  refine ⟨?_, ?_, srtString_run⟩
  · show (ForEach (fun _ sub (sb : Str) => (sub, sb ++ sub.String, true)) s.Subtitles []).2.2
        ++ ['\n'] = _
    rw [key]
    rfl
  · intro c
    show (ForEach (fun _ sub (sb : Str) => (sub, sb ++ sub.String, true)) s.Subtitles []).2.2
        ++ ['\n']
      = (ForEach (fun _ sub (sb : Str) => (sub, sb ++ sub.String, true))
          (s.Subtitles.filter fun sub => !sub.IsDeleted) []).2.2 ++ ['\n']
    simp only [key, List.filter_filter, Bool.and_self]

/-- C5. `Cut(start, end)` leaves every deleted entry as it is and treats every other
entry by the first case that applies: it is marked as deleted when
`start <= StartMs < end`; `StartMs` and `EndMs` are lowered by `end - start` in `uint32`
arithmetic when `StartMs >= end`; it is unchanged otherwise. The returned number is the
number of entries that the call marks, and both the cached count and the number of live
entries go down by it. On five cues that start at 0, 10, 30, 50 and 60 seconds
`Cut(30000, 60000)` deletes 2 entries and the cue of second 60 starts at 30000. -/
theorem cut_spec (s : Srt) (start stop : Nat) :
    (s.Cut start stop).1.Subtitles = s.Subtitles.map (fun sub =>
        if sub.IsDeleted then sub
        else if start ≤ sub.StartMs ∧ sub.StartMs < stop then { sub with Num := -1 }
        else if stop ≤ sub.StartMs then
          { sub with StartMs := sub32 sub.StartMs (sub32 stop start),
                     EndMs := sub32 sub.EndMs (sub32 stop start) }
        else sub)
    ∧ (s.Cut start stop).2 = ((s.Subtitles.filter fun sub =>
        !sub.IsDeleted && decide (start ≤ sub.StartMs ∧ sub.StartMs < stop)).length : Int)
    ∧ (s.Cut start stop).1.GetCount = s.GetCount - (s.Cut start stop).2
    ∧ liveCount (s.Cut start stop).1.Subtitles = liveCount s.Subtitles - (s.Cut start stop).2
    ∧ NewSrtFromString fiveCues = .ok fiveCuesSrt
    ∧ (fiveCuesSrt.Cut 30000 60000).2 = 2
    ∧ ((fiveCuesSrt.Cut 30000 60000).1.Subtitles.map fun sub => (sub.IsDeleted, sub.StartMs))
        = [(false, 0), (false, 10000), (true, 30000), (true, 50000), (false, 30000)] := by
  have h2 := liveCount_edit
    (fun sub => decide (start ≤ sub.StartMs) && decide (sub.StartMs < stop))
    (fun sub => if stop ≤ sub.StartMs then
      { sub with StartMs := sub32 sub.StartMs (sub32 stop start),
                 EndMs := sub32 sub.EndMs (sub32 stop start) } else sub)
    (fun sub hs => by dsimp only; split <;> exact hs) s.Subtitles
  refine ⟨?_, ?_, ?_, ?_, fiveCues_run, by decide, by decide⟩
  · rw [cut_run]
    apply List.map_congr_left
    intro sub _
    by_cases h1 : start ≤ sub.StartMs <;> by_cases h3 : sub.StartMs < stop <;>
      simp [h1, h3, Subtitle.MarkAsDeleted]
  · rw [cut_run]
    simp only [Bool.decide_and]
  · rw [cut_run]
    rfl
  · rw [cut_run]
    exact h2

/-- C6. `TrimTo(c)` marks as deleted exactly the live entries with `StartMs < c`, returns
their number, and lowers the cached count and the number of live entries by it. Every
other live entry gets `StartMs - c` and `EndMs - c`, the differences of `uint32`, which
are the ordinary differences whenever `c` is not above the old value. Deleted entries
stay as they are, so no entry is un-deleted. On five cues that start at 0, 10, 30, 50
and 60 seconds `TrimTo(40000)` deletes 3, leaves 2, and the survivors start at 10000 and
20000. -/
theorem trimTo_spec (s : Srt) (c : Nat) :
    (s.TrimTo c).1.Subtitles = s.Subtitles.map (fun sub =>
        if sub.IsDeleted then sub
        else if sub.StartMs < c then { sub with Num := -1 }
        else { sub with StartMs := sub32 sub.StartMs c, EndMs := sub32 sub.EndMs c })
    ∧ (∀ a : Nat, c ≤ a → a < 4294967296 → sub32 a c = a - c)
    ∧ (s.TrimTo c).2 = ((s.Subtitles.filter fun sub =>
        !sub.IsDeleted && decide (sub.StartMs < c)).length : Int)
    ∧ (s.TrimTo c).1.GetCount = s.GetCount - (s.TrimTo c).2
    ∧ liveCount (s.TrimTo c).1.Subtitles = liveCount s.Subtitles - (s.TrimTo c).2
    ∧ List.Forall₂ (fun a b => a.IsDeleted = true → b = a) s.Subtitles (s.TrimTo c).1.Subtitles
    ∧ NewSrtFromString fiveCues = .ok fiveCuesSrt
    ∧ (fiveCuesSrt.TrimTo 40000).2 = 3
    ∧ (fiveCuesSrt.TrimTo 40000).1.GetCount = 2
    ∧ (((fiveCuesSrt.TrimTo 40000).1.Subtitles.filter fun sub => !sub.IsDeleted).map
        fun sub => sub.StartMs) = [10000, 20000] := by
  have h2 := liveCount_edit (fun sub => decide (sub.StartMs < c))
    (fun sub => { sub with StartMs := sub32 sub.StartMs c, EndMs := sub32 sub.EndMs c })
    (fun sub hs => hs) s.Subtitles
  refine ⟨?_, ?_, ?_, ?_, ?_, ?_, fiveCues_run, by decide, by decide, by decide⟩
  · rw [trimTo_run]
    apply List.map_congr_left
    intro sub _
    by_cases h1 : sub.StartMs < c <;> simp [h1, Subtitle.MarkAsDeleted]
  · intro a h1 h3
    unfold sub32 u32
    omega
  · rw [trimTo_run]
  · rw [trimTo_run]
    rfl
  · rw [trimTo_run]
    exact h2
  · rw [trimTo_run]
    simp only [List.forall₂_map_right_iff]
    exact List.forall₂_same.mpr (fun sub _ h => by simp [h])

/-- Witness of C6: the cue that starts at 50000 ms starts at 10000 ms after
`TrimTo(40000)`. -/
theorem trimTo_spec_witness : sub32 50000 40000 = 50000 - 40000 :=
  (trimTo_spec fiveCuesSrt 40000).2.1 50000 (by decide) (by decide)

/-- C7. When some entry has the number `n`, `DeleteSubtitle(n)` returns the index of the
first such entry, marks that entry as deleted, lowers the cached count by exactly 1 and
leaves every other entry as it is. When no entry has the number `n` it returns -1 and
changes nothing. With the numbers 1, 3, 5 and 7, `DeleteSubtitle(5)` returns 2 and the
count becomes 3. -/
theorem deleteSubtitle_spec (s : Srt) (n : Int) :
    ((∃ x ∈ s.Subtitles, x.Num = n) →
      ∃ pre sub post, s.Subtitles = pre ++ sub :: post ∧ (∀ x ∈ pre, x.Num ≠ n) ∧ sub.Num = n
        ∧ s.DeleteSubtitle n
          = ({ Subtitles := pre ++ { sub with Num := -1 } :: post, count := s.count - 1 },
              (pre.length : Int))
        ∧ (s.DeleteSubtitle n).1.GetCount = s.GetCount - 1)
    ∧ ((∀ x ∈ s.Subtitles, x.Num ≠ n) → s.DeleteSubtitle n = (s, -1))
    ∧ NewSrtFromString oddNumbers = .ok oddNumbersSrt
    ∧ (oddNumbersSrt.DeleteSubtitle 5).2 = 2
    ∧ (oddNumbersSrt.DeleteSubtitle 5).1.GetCount = 3 := by
  refine ⟨?_, ?_, oddNumbers_run, by decide, by decide⟩
  · intro hex
    obtain ⟨pre, sub, post, h1, h2, h3⟩ := exists_first n s.Subtitles hex
    have hrun : s.DeleteSubtitle n
        = ({ Subtitles := pre ++ { sub with Num := -1 } :: post, count := s.count - 1 },
            (pre.length : Int)) := by
      unfold Srt.DeleteSubtitle
      rw [h1, deleteSubtitleFrom_found n pre sub post 0 s.count h2 h3]
      simp [Subtitle.MarkAsDeleted]
    exact ⟨pre, sub, post, h1, h2, h3, hrun, by rw [hrun]; rfl⟩
  · intro hno
    unfold Srt.DeleteSubtitle
    rw [deleteSubtitleFrom_none n s.Subtitles 0 s.count hno]

/-- Witness of C7: both cases on the collection of `TestDeleteSubtitle`. -/
theorem deleteSubtitle_spec_witness :
    (∃ pre sub post, oddNumbersSrt.Subtitles = pre ++ sub :: post
        ∧ (∀ x ∈ pre, x.Num ≠ 5) ∧ sub.Num = 5
        ∧ oddNumbersSrt.DeleteSubtitle 5
          = ({ Subtitles := pre ++ { sub with Num := -1 } :: post,
               count := oddNumbersSrt.count - 1 }, (pre.length : Int))
        ∧ (oddNumbersSrt.DeleteSubtitle 5).1.GetCount = oddNumbersSrt.GetCount - 1)
    ∧ oddNumbersSrt.DeleteSubtitle 4 = (oddNumbersSrt, -1) :=
  ⟨(deleteSubtitle_spec oddNumbersSrt 5).1 ⟨⟨5, 144520, 147400, []⟩, by decide, rfl⟩,
    (deleteSubtitle_spec oddNumbersSrt 4).2.1 (by decide)⟩

/-- C8. After `Sort` the sequence is a permutation of the sequence before (so no field
of an entry is modified), it is ascending in `StartMs`, the entries of every start time
keep their order, deleted ones included, and the cached count is unchanged. In
`TestSort` the entry numbered 4, which starts at 0, comes first. -/
theorem sort_spec (s : Srt) :
    List.Perm s.Sort.Subtitles s.Subtitles
    ∧ List.Pairwise (fun a b => a.StartMs ≤ b.StartMs) s.Sort.Subtitles
    ∧ (∀ v : Nat, s.Sort.Subtitles.filter (fun sub => decide (sub.StartMs = v))
        = s.Subtitles.filter (fun sub => decide (sub.StartMs = v)))
    ∧ s.Sort.GetCount = s.GetCount
    ∧ (NewSrtFromString sortInput).map
          (fun s => s.Sort.Subtitles.map fun sub => (sub.Num, sub.StartMs))
        = .ok [(4, 0), (3, 10000), (2, 15000), (1, 25000), (5, 35000)] :=
  ⟨sliceStable_perm _, sliceStable_sorted _, fun v => sliceStable_filter v _, rfl,
    sortInput_run⟩

/-- C9 as stated fails. The text `malformedBlocks` has a block whose number line is `two`
and a block whose timing line writes `0:00:20.000`; `NewSrtFromString` returns no error
but a collection that holds the first block only. -/
theorem malformed_blocks_are_skipped :
    NewSrtFromString malformedBlocks
      = .ok { Subtitles := [⟨1, 0, 10000, ['f', 'i', 'r', 's', 't', '\n']⟩], count := 1 } :=
  malformedBlocks_run

/-- C9 as amended. `NewSrtFromString` returns an error exactly when one of the blocks that
the block pattern finds in the text has a number that `strconv.Atoi` rejects or a start
or end field that `MillisFromSrtFormat` rejects. -/
theorem parse_error_iff (str : Str) :
    (∃ e, NewSrtFromString str = .error e) ↔
      ∃ m ∈ FindAllStringSubmatch (str ++ ['\n', '\n']),
        (∃ e, Atoi m.number = .error e) ∨ (∃ e, MillisFromSrtFormat m.start = .error e)
          ∨ (∃ e, MillisFromSrtFormat m.stop = .error e) := by
  unfold NewSrtFromString
  rw [parseLoop_error_iff]
  constructor
  · rintro ⟨m, hm, he⟩
    exact ⟨m, hm, (newSubtitle_error_iff m).mp he⟩
  · rintro ⟨m, hm, he⟩
    exact ⟨m, hm, (newSubtitle_error_iff m).mpr he⟩

/-- Witness of C9 as amended: the start time `0:00:20` of the block of `shortTime` lacks
its milliseconds, and the parse fails. -/
theorem parse_error_iff_witness : ∃ e, NewSrtFromString shortTime = .error e :=
  (parse_error_iff shortTime).mpr
    ⟨_, shortTime_run.1, Or.inr (Or.inl ⟨_, shortTime_run.2⟩)⟩

/-- C10 as stated fails. The text `1194:00:00,000` has the value 4298400000, which is not
a `uint32`: the result is 3432704. A group of twenty digits does not fit `int` and makes
the call fail. -/
theorem millis_wraps_or_fails :
    MillisFromSrtFormat
        ['1', '1', '9', '4', ':', '0', '0', ':', '0', '0', ',', '0', '0', '0'] = .ok 3432704
    ∧ (3432704 : Nat) ≠ 0 + 0 * 1000 + 0 * 60000 + 1194 * 3600000
    ∧ MillisFromSrtFormat
        ("10000000000000000000".toList ++ [':', '0', '0', ':', '0', '0', ',', '0', '0', '0'])
        = .error .atoiRange := by
  refine ⟨by decide, by decide, by decide⟩

/-- C10 as amended. For four non-empty groups of decimal digits whose values are below
`2^63`, `MillisFromSrtFormat` succeeds on `h:m:s,ms` and returns
`ms + s*1000 + m*60000 + h*3600000` reduced modulo `2^32`, which is that sum when the sum
is below `2^32`. The text `02:08:10,689` gives 7690689 and `toMillis(4, 43, 53, 733)` is
17033733. -/
theorem millis_value (h m s ms : Str)
    (hh : h.all isDigit = true) (hh0 : h ≠ []) (hm : m.all isDigit = true) (hm0 : m ≠ [])
    (hs : s.all isDigit = true) (hs0 : s ≠ []) (hms : ms.all isDigit = true) (hms0 : ms ≠ [])
    (bh : decVal h < 2 ^ 63) (bm : decVal m < 2 ^ 63) (bs : decVal s < 2 ^ 63)
    (bms : decVal ms < 2 ^ 63) :
    MillisFromSrtFormat (h ++ [':'] ++ m ++ [':'] ++ s ++ [','] ++ ms)
        = .ok ((decVal ms + decVal s * 1000 + decVal m * 60000 + decVal h * 3600000)
            % 4294967296)
    ∧ MillisFromSrtFormat ['0', '2', ':', '0', '8', ':', '1', '0', ',', '6', '8', '9']
        = .ok 7690689
    ∧ toMillis 4 43 53 733 = 17033733 :=
  ⟨millis_groups h m s ms hh hh0 hm hm0 hs hs0 hms hms0 bh bm bs bms, by decide, by decide⟩

/-- Witness of C10 as amended at `02:08:10,689`. -/
theorem millis_value_witness :
    MillisFromSrtFormat (['0', '2'] ++ [':'] ++ ['0', '8'] ++ [':'] ++ ['1', '0'] ++ [',']
        ++ ['6', '8', '9'])
      = .ok ((decVal ['6', '8', '9'] + decVal ['1', '0'] * 1000 + decVal ['0', '8'] * 60000
          + decVal ['0', '2'] * 3600000) % 4294967296) :=
  (millis_value ['0', '2'] ['0', '8'] ['1', '0'] ['6', '8', '9'] (by decide) (by decide)
    (by decide) (by decide) (by decide) (by decide) (by decide) (by decide) (by decide)
    (by decide) (by decide) (by decide)).1

/-! ## DeleteByDuration and DeleteEmpty -/

set_option maxRecDepth 1000000 in
theorem durationInput_run : NewSrtFromString durationInput = .ok durationSrt := by decide

set_option maxRecDepth 1000000 in
theorem emptyInput_run : NewSrtFromString emptyInput = .ok emptySrt := by decide

/-- `DeleteIf` with a judge that does not look at the rank. -/
theorem deleteIf_run (s : Srt) (p : Subtitle → Bool) :
    s.DeleteIf (fun _ sub => p sub) =
      ({ Subtitles := s.Subtitles.map fun sub =>
            if sub.IsDeleted then sub else if p sub then sub.MarkAsDeleted else sub,
         count := s.count - ((s.Subtitles.filter fun sub => !sub.IsDeleted && p sub).length
            : Int) },
        ((s.Subtitles.filter fun sub => !sub.IsDeleted && p sub).length : Int)) := by
  unfold Srt.DeleteIf ForEach
  rw [forEachFrom_edit p (fun sub => sub) (deleteIfFn fun _ sub => p sub)
    (fun i sub st => rfl) s.Subtitles 0 0 s.count]
  simp only [zero_add]

theorem trimSpace_isEmpty (t : Str) : (TrimSpace t).isEmpty = t.all isSpace := by
  unfold TrimSpace
  rw [Bool.eq_iff_iff]
  simp only [List.isEmpty_iff, List.reverse_eq_nil_iff, List.dropWhile_eq_nil_iff,
    List.mem_reverse, List.all_eq_true]
  constructor
  · intro h
    have hnil : t.dropWhile isSpace = [] := by
      cases hd : t.dropWhile isSpace with
      | nil => rfl
      | cons c cs =>
        have h1 : isSpace c = true := h c (by rw [hd]; exact List.mem_cons_self _ _)
        have h2 := List.head_dropWhile_not isSpace t (by rw [hd]; simp)
        simp only [hd, List.head_cons] at h2
        rw [h1] at h2
        exact absurd h2 (by simp)
    exact List.dropWhile_eq_nil_iff.mp hnil
  · intro h x hx
    exact h x ((List.dropWhile_sublist isSpace).subset hx)

/-! ## TrimTo as a Cut; the order of the live entries -/

theorem trimTo_is_cut_zero (s : Srt) (c : Nat) : s.TrimTo c = s.Cut 0 c := by
  rw [trimTo_run, cut_run]
  have hs : ∀ x : Nat, sub32 x (sub32 c 0) = sub32 x c := by
    intro x
    unfold sub32 u32
    omega
  simp only [Nat.zero_le, decide_True, Bool.true_and, hs]
  congr 2
  apply List.map_congr_left
  intro sub _
  by_cases h1 : sub.StartMs < c
  · simp [h1]
  · have h2 : c ≤ sub.StartMs := by omega
    simp [h1, h2]

theorem filter_live_edit (p : Subtitle → Bool) (g : Subtitle → Subtitle)
    (hg : ∀ sub, sub.IsDeleted = false → (g sub).IsDeleted = false) (subs : List Subtitle) :
    (subs.map fun sub =>
        if sub.IsDeleted then sub else if p sub then sub.MarkAsDeleted else g sub).filter
        (fun sub => !sub.IsDeleted)
      = ((subs.filter fun sub => !sub.IsDeleted).filter fun sub => !p sub).map g := by
  induction subs with
  | nil => rfl
  | cons sub rest ih =>
    rw [List.map_cons, List.filter_cons, ih]
    by_cases hd : sub.IsDeleted = true
    · simp [hd]
    · have hd2 : sub.IsDeleted = false := by simpa using hd
      by_cases hp : p sub = true
      · have hm : sub.MarkAsDeleted.IsDeleted = true := by
          simp [Subtitle.MarkAsDeleted, Subtitle.IsDeleted]
        simp [hd2, hp, hm]
      · have hp2 : p sub = false := by simpa using hp
        simp [hd2, hp2, hg sub hd2]

theorem cut_live (s : Srt) (start stop : Nat) :
    (s.Cut start stop).1.Subtitles.filter (fun sub => !sub.IsDeleted)
      = ((s.Subtitles.filter fun sub => !sub.IsDeleted).filter fun sub =>
            !(decide (start ≤ sub.StartMs) && decide (sub.StartMs < stop))).map
          fun sub => if stop ≤ sub.StartMs then
            { sub with StartMs := sub32 sub.StartMs (sub32 stop start),
                       EndMs := sub32 sub.EndMs (sub32 stop start) } else sub := by
  rw [cut_run]
  exact filter_live_edit _ _ (fun sub hs => by split <;> exact hs) s.Subtitles

theorem cut_order (s : Srt) (start stop : Nat) (hse : start ≤ stop)
    (hstop : stop < 4294967296)
    (hwf : ∀ sub ∈ s.Subtitles, sub.IsDeleted = false → sub.StartMs < 4294967296)
    (hasc : List.Pairwise (fun a b => a.StartMs ≤ b.StartMs)
      (s.Subtitles.filter fun sub => !sub.IsDeleted)) :
    List.Pairwise (fun a b => a.StartMs ≤ b.StartMs)
      ((s.Cut start stop).1.Subtitles.filter fun sub => !sub.IsDeleted) := by
  rw [cut_live, List.pairwise_map]
  refine (hasc.sublist (List.filter_sublist _)).imp_of_mem ?_
  intro a b ha hb hab
  have ha1 := List.mem_filter.mp ha
  have hb1 := List.mem_filter.mp hb
  have ha2 := List.mem_filter.mp ha1.1
  have hb2 := List.mem_filter.mp hb1.1
  have hwa := hwf a ha2.1 (by simpa using ha2.2)
  have hwb := hwf b hb2.1 (by simpa using hb2.2)
  have hpa : a.StartMs < start ∨ stop ≤ a.StartMs := by simpa using ha1.2
  have hpb : b.StartMs < start ∨ stop ≤ b.StartMs := by simpa using hb1.2
  by_cases h1 : stop ≤ a.StartMs <;> by_cases h2 : stop ≤ b.StartMs <;>
    simp only [h1, h2, if_true, if_false, sub32, u32] <;> omega

theorem cut_order_strict (s : Srt) (start stop : Nat) (hse : start ≤ stop)
    (hstop : stop < 4294967296)
    (hwf : ∀ sub ∈ s.Subtitles, sub.IsDeleted = false → sub.StartMs < 4294967296)
    (hasc : List.Pairwise (fun a b => a.StartMs < b.StartMs)
      (s.Subtitles.filter fun sub => !sub.IsDeleted)) :
    List.Pairwise (fun a b => a.StartMs < b.StartMs)
      ((s.Cut start stop).1.Subtitles.filter fun sub => !sub.IsDeleted) := by
  rw [cut_live, List.pairwise_map]
  refine (hasc.sublist (List.filter_sublist _)).imp_of_mem ?_
  intro a b ha hb hab
  have ha1 := List.mem_filter.mp ha
  have hb1 := List.mem_filter.mp hb
  have ha2 := List.mem_filter.mp ha1.1
  have hb2 := List.mem_filter.mp hb1.1
  have hwa := hwf a ha2.1 (by simpa using ha2.2)
  have hwb := hwf b hb2.1 (by simpa using hb2.2)
  have hpa : a.StartMs < start ∨ stop ≤ a.StartMs := by simpa using ha1.2
  have hpb : b.StartMs < start ∨ stop ≤ b.StartMs := by simpa using hb1.2
  by_cases h1 : stop ≤ a.StartMs <;> by_cases h2 : stop ≤ b.StartMs <;>
    simp only [h1, h2, if_true, if_false, sub32, u32] <;> omega

/-! ## The calls of `ForEach` -/

theorem isGroup_iff (ds : Str) : isGroup ds = true ↔ ds ≠ [] ∧ ds.all isDigit = true := by
  cases ds <;> simp [isGroup]

theorem many1_some (p : Char → Bool) (cs a r : Str) (h : many1 p cs = some (a, r)) :
    cs = a ++ r ∧ a ≠ [] ∧ a.all p = true := by
  unfold many1 at h
  by_cases he : (cs.takeWhile p).isEmpty = true
  · simp [he] at h
  · simp only [he, Bool.false_eq_true, if_false, Option.some.injEq, Prod.mk.injEq] at h
    obtain ⟨h1, h2⟩ := h
    subst h1 h2
    refine ⟨(List.takeWhile_append_dropWhile p cs).symm, ?_, ?_⟩
    · intro hnil
      exact he (by simp [hnil])
    · rw [List.all_eq_true]
      intro x hx
      exact List.mem_takeWhile_imp hx

theorem lit_some (l cs r : Str) (h : lit l cs = some r) : cs = l ++ r := by
  unfold lit at h
  by_cases hp : l.isPrefixOf cs = true
  · simp only [hp, if_true, Option.some.injEq] at h
    obtain ⟨t, ht⟩ := List.isPrefixOf_iff_prefix.mp hp
    subst ht
    rw [← h]
    simp
  · simp [hp] at h

theorem matchTimeAt_some (cs : Str) (m : TimeMatch) (h : matchTimeAt cs = some m) :
    m.shaped = true ∧ ∃ rest, cs = m.text ++ rest := by
  unfold matchTimeAt at h
  cases h1 : many1 isDigit cs with
  | none => simp [h1] at h
  | some p1 =>
    obtain ⟨a1, r1⟩ := p1
    simp only [h1, Option.bind] at h
    cases h2 : lit [':'] r1 with
    | none => simp [h2] at h
    | some r2 =>
      simp only [h2] at h
      cases h3 : many1 isDigit r2 with
      | none => simp [h3] at h
      | some p3 =>
        obtain ⟨a3, r3⟩ := p3
        simp only [h3] at h
        cases h4 : lit [':'] r3 with
        | none => simp [h4] at h
        | some r4 =>
          simp only [h4] at h
          cases h5 : many1 isDigit r4 with
          | none => simp [h5] at h
          | some p5 =>
            obtain ⟨a5, r5⟩ := p5
            simp only [h5] at h
            cases h6 : lit [','] r5 with
            | none => simp [h6] at h
            | some r6 =>
              simp only [h6] at h
              cases h7 : many1 isDigit r6 with
              | none => simp [h7] at h
              | some p7 =>
                obtain ⟨a7, r7⟩ := p7
                simp only [h7, Option.some.injEq] at h
                subst h
                obtain ⟨e1, n1, d1⟩ := many1_some _ _ _ _ h1
                obtain ⟨e3, n3, d3⟩ := many1_some _ _ _ _ h3
                obtain ⟨e5, n5, d5⟩ := many1_some _ _ _ _ h5
                obtain ⟨e7, n7, d7⟩ := many1_some _ _ _ _ h7
                have e2 := lit_some _ _ _ h2
                have e4 := lit_some _ _ _ h4
                have e6 := lit_some _ _ _ h6
                refine ⟨?_, r7, ?_⟩
                · simp only [TimeMatch.shaped, Bool.and_eq_true, isGroup_iff]
                  exact ⟨⟨⟨⟨n1, d1⟩, n3, d3⟩, n5, d5⟩, n7, d7⟩
                · rw [e1, e2, e3, e4, e5, e6, e7]
                  simp [TimeMatch.text]

theorem findTime_some (cs : Str) (m : TimeMatch) (h : findTime cs = some m) :
    m.shaped = true ∧ ∃ pre rest, cs = pre ++ m.text ++ rest := by
  induction cs with
  | nil => simp [findTime] at h
  | cons c cs ih =>
    unfold findTime at h
    cases hm : matchTimeAt (c :: cs) with
    | some m2 =>
      simp only [hm, Option.some.injEq] at h
      subst h
      obtain ⟨h1, rest, h2⟩ := matchTimeAt_some _ _ hm
      exact ⟨h1, [], rest, by simpa using h2⟩
    | none =>
      simp only [hm] at h
      obtain ⟨h1, pre, rest, h2⟩ := ih h
      exact ⟨h1, c :: pre, rest, by simp [h2]⟩

theorem takeWhile_of_all (p : Char → Bool) (ds rest : Str) (hds : ds.all p = true) :
    (ds ++ rest).takeWhile p = ds ++ rest.takeWhile p
      ∧ (ds ++ rest).dropWhile p = rest.dropWhile p := by
  induction ds with
  | nil => exact ⟨rfl, rfl⟩
  | cons d ds ih =>
    simp only [List.all_cons, Bool.and_eq_true] at hds
    obtain ⟨i1, i2⟩ := ih hds.2
    simp [List.takeWhile_cons, List.dropWhile_cons, hds.1, i1, i2]

theorem many1_of_all (p : Char → Bool) (ds rest : Str) (hds : ds.all p = true) (hne : ds ≠ []) :
    many1 p (ds ++ rest) = some (ds ++ rest.takeWhile p, rest.dropWhile p) := by
  obtain ⟨h1, h2⟩ := takeWhile_of_all p ds rest hds
  unfold many1
  rw [h1, h2]
  cases ds with
  | nil => exact absurd rfl hne
  | cons d ds => rfl

theorem matchTimeAt_text (g : TimeMatch) (post : Str) (hg : g.shaped = true) :
    matchTimeAt (g.text ++ post)
      = some ⟨g.h, g.min, g.sec, g.ms ++ post.takeWhile isDigit⟩ := by
  simp only [TimeMatch.shaped, Bool.and_eq_true, isGroup_iff] at hg
  obtain ⟨⟨⟨⟨n1, d1⟩, n3, d3⟩, n5, d5⟩, n7, d7⟩ := hg
  unfold matchTimeAt
  have e1 : g.text ++ post
      = g.h ++ (':' :: (g.min ++ (':' :: (g.sec ++ (',' :: (g.ms ++ post)))))) := by
    simp [TimeMatch.text]
  rw [e1, many1_run isDigit g.h (':' :: (g.min ++ (':' :: (g.sec ++ (',' :: (g.ms ++ post))))))
    d1 n1 rfl]
  simp only [Option.bind, lit, List.isPrefixOf, beq_self_eq_true, Bool.true_and, if_true,
    List.length_cons, List.length_nil, List.drop_succ_cons, List.drop_zero]
  rw [many1_run isDigit g.min (':' :: (g.sec ++ (',' :: (g.ms ++ post)))) d3 n3 rfl]
  simp only [Option.bind, lit, List.isPrefixOf, beq_self_eq_true, Bool.true_and, if_true,
    List.length_cons, List.length_nil, List.drop_succ_cons, List.drop_zero]
  rw [many1_run isDigit g.sec (',' :: (g.ms ++ post)) d5 n5 rfl]
  simp only [Option.bind, lit, List.isPrefixOf, beq_self_eq_true, Bool.true_and, if_true,
    List.length_cons, List.length_nil, List.drop_succ_cons, List.drop_zero]
  rw [many1_of_all isDigit g.ms post d7 n7]

theorem findTime_isSome_append (pre suf : Str) (h : (matchTimeAt suf).isSome = true) :
    (findTime (pre ++ suf)).isSome = true := by
  induction pre with
  | nil =>
    cases suf with
    | nil => simp [matchTimeAt, many1] at h
    | cons c cs =>
      simp only [List.nil_append]
      unfold findTime
      cases hm : matchTimeAt (c :: cs) with
      | none => rw [hm] at h; exact absurd h (by simp)
      | some m => rfl
  | cons c pre ih =>
    simp only [List.cons_append]
    unfold findTime
    cases hm : matchTimeAt (c :: (pre ++ suf)) with
    | none => exact ih
    | some m => rfl

theorem findTime_none_iff (text : Str) :
    findTime text = none ↔
      ¬ ∃ (pre : Str) (g : TimeMatch) (post : Str),
          g.shaped = true ∧ text = pre ++ g.text ++ post := by
  constructor
  · rintro hnone ⟨pre, g, post, hg, ht⟩
    have := findTime_isSome_append pre (g.text ++ post)
      (by rw [matchTimeAt_text g post hg]; rfl)
    rw [ht, List.append_assoc] at hnone
    rw [hnone] at this
    exact absurd this (by simp)
  · intro h
    cases hf : findTime text with
    | none => rfl
    | some m =>
      obtain ⟨h1, pre, rest, h2⟩ := findTime_some _ _ hf
      exact absurd ⟨pre, m, rest, h1, h2⟩ h

theorem Atoi_error (s : Str) (e : SrtError) (h : Atoi s = .error e) :
    e = .atoiSyntax ∨ e = .atoiRange := by
  unfold Atoi at h
  simp only [] at h
  split_ifs at h <;> (simp only [Except.error.injEq] at h; subst h; simp)

theorem millis_of_match (text : Str) (m : TimeMatch) (hf : findTime text = some m) :
    MillisFromSrtFormat text ≠ .error (.wrongFormat text) := by
  intro hcon
  unfold MillisFromSrtFormat at hcon
  simp only [hf] at hcon
  cases h1 : Atoi m.h with
  | error e =>
    rw [h1] at hcon
    rcases Atoi_error _ _ h1 with h | h <;> (rw [h] at hcon; cases hcon)
  | ok a =>
    rw [h1] at hcon
    cases h2 : Atoi m.min with
    | error e =>
      rw [h2] at hcon
      rcases Atoi_error _ _ h2 with h | h <;> (rw [h] at hcon; cases hcon)
    | ok b =>
      rw [h2] at hcon
      cases h3 : Atoi m.sec with
      | error e =>
        rw [h3] at hcon
        rcases Atoi_error _ _ h3 with h | h <;> (rw [h] at hcon; cases hcon)
      | ok c =>
        rw [h3] at hcon
        cases h4 : Atoi m.ms with
        | error e =>
          rw [h4] at hcon
          rcases Atoi_error _ _ h4 with h | h <;> (rw [h] at hcon; cases hcon)
        | ok d =>
          rw [h4] at hcon
          cases hcon

theorem wrongFormat_iff (text : Str) :
    MillisFromSrtFormat text = .error (.wrongFormat text) ↔
      ¬ ∃ (pre : Str) (g : TimeMatch) (post : Str),
          g.shaped = true ∧ text = pre ++ g.text ++ post := by
  rw [← findTime_none_iff]
  constructor
  · intro h
    cases hf : findTime text with
    | none => rfl
    | some m => exact absurd h (millis_of_match text m hf)
  · intro h
    unfold MillisFromSrtFormat
    rw [h]

/-! ## Canonical decimal forms -/

theorem toDigitsCore_eq (n : Nat) : ∀ (fuel : Nat) (ds : Str), n < fuel →
    Nat.toDigitsCore 10 fuel n ds = fmtV n ++ ds := by
  induction n using Nat.strong_induction_on with
  | _ n ih =>
    intro fuel ds hf
    cases fuel with
    | zero => omega
    | succ f =>
      have hD : fmtV n = Nat.toDigitsCore 10 (n + 1) n [] := rfl
      by_cases h0 : n / 10 = 0
      · rw [hD]
        simp [Nat.toDigitsCore, h0]
      · have hlt : n / 10 < n := by omega
        rw [hD]
        simp only [Nat.toDigitsCore, h0, if_false]
        rw [ih (n / 10) hlt f _ (by omega), ih (n / 10) hlt n _ hlt]
        simp

theorem fmtV_small (n : Nat) (h : n < 10) : fmtV n = [Nat.digitChar n] := by
  have h0 : n / 10 = 0 := by omega
  have h1 : n % 10 = n := by omega
  show Nat.toDigitsCore 10 (n + 1) n [] = _
  simp [Nat.toDigitsCore, h0, h1]

theorem fmtV_step (n : Nat) (h : 10 ≤ n) :
    fmtV n = fmtV (n / 10) ++ [Nat.digitChar (n % 10)] := by
  have h0 : ¬ n / 10 = 0 := by omega
  show Nat.toDigitsCore 10 (n + 1) n [] = _
  simp only [Nat.toDigitsCore, h0, if_false]
  exact toDigitsCore_eq (n / 10) n _ (by omega)

theorem digitChar_val (c : Char) (hc : isDigit c = true) :
    Nat.digitChar (c.toNat - 48) = c ∧ c.toNat - 48 < 10 := by
  simp only [isDigit, Bool.and_eq_true, decide_eq_true_eq] at hc
  obtain ⟨h1, h2⟩ := hc
  have hlt : c.toNat - 48 < 10 := by omega
  refine ⟨?_, hlt⟩
  apply Char.ext
  apply UInt32.ext
  show (Nat.digitChar (c.toNat - 48)).toNat = c.toNat
  have key : ∀ k, k < 10 → (Nat.digitChar k).toNat = k + 48 := by
    intro k hk
    interval_cases k <;> rfl
  rw [key _ hlt]
  omega

theorem decVal_pos (ds : Str) (hds : ds.all isDigit = true) (hne : ds ≠ [])
    (hhead : ds.head? ≠ some '0') : 0 < decVal ds := by
  induction ds using List.reverseRecOn with
  | nil => exact absurd rfl hne
  | append_singleton init c ih =>
    rw [decVal_append_singleton]
    cases init with
    | nil =>
      simp only [List.nil_append, List.all_cons, List.all_nil, Bool.and_true] at hds
      simp only [List.nil_append, List.head?_cons, ne_eq, Option.some.injEq] at hhead
      obtain ⟨h1, h2⟩ := digitChar_val c hds
      by_contra hz
      have hz2 : c.toNat - 48 = 0 := by
        simp only [decVal, List.foldl_nil] at hz
        omega
      rw [hz2] at h1
      exact hhead h1.symm
    | cons d ds =>
      simp only [List.cons_append, List.all_cons, Bool.and_eq_true, List.all_append] at hds
      have := ih (by simp [hds.1, hds.2.1]) (by simp) (by simpa using hhead)
      omega

/-- A run of digits that is `0` or starts with another digit is the decimal form of
its value. -/
theorem fmtV_decVal (ds : Str) (hds : ds.all isDigit = true) (hne : ds ≠ [])
    (hcan : ds = ['0'] ∨ ds.head? ≠ some '0') : fmtV (decVal ds) = ds := by
  induction ds using List.reverseRecOn with
  | nil => exact absurd rfl hne
  | append_singleton init c ih =>
    rw [List.all_append, Bool.and_eq_true] at hds
    have hc : isDigit c = true := by simpa using hds.2
    obtain ⟨hc1, hc2⟩ := digitChar_val c hc
    rw [decVal_append_singleton]
    cases init with
    | nil =>
      simp only [decVal, List.foldl_nil, List.nil_append, Nat.zero_mul, Nat.zero_add]
      rw [fmtV_small _ hc2, hc1]
    | cons d rest =>
      have hhead : (d :: rest).head? ≠ some '0' := by
        rcases hcan with h | h
        · have := congrArg List.length h
          simp at this
        · simpa using h
      have hpos := decVal_pos (d :: rest) hds.1 (by simp) hhead
      have e1 : (decVal (d :: rest) * 10 + (c.toNat - 48)) / 10 = decVal (d :: rest) := by omega
      have e2 : (decVal (d :: rest) * 10 + (c.toNat - 48)) % 10 = c.toNat - 48 := by omega
      rw [fmtV_step _ (by omega), e1, e2, hc1, ih hds.1 (by simp) (Or.inr hhead)]

/-- A run of `w` digits is the decimal form of its value padded with zeros to `w`. -/
theorem padZero_decVal (ds : Str) (hds : ds.all isDigit = true) (hne : ds ≠ []) :
    padZero ds.length (fmtV (decVal ds)) = ds := by
  induction ds with
  | nil => exact absurd rfl hne
  | cons d rest ih =>
    by_cases hd : d = '0'
    · cases rest with
      | nil => rw [hd]; rfl
      | cons e es =>
        simp only [List.all_cons, Bool.and_eq_true] at hds
        have ih2 := ih (by simp [hds.2.1, hds.2.2]) (by simp)
        have hval : decVal (d :: e :: es) = decVal (e :: es) := by
          have := decVal_zeros 1 (e :: es)
          rw [hd]
          simpa using this
        rw [hval]
        have hlen : (fmtV (decVal (e :: es))).length ≤ (e :: es).length := by
          have := congrArg List.length ih2
          simp only [padZero, List.length_append, List.length_replicate] at this
          omega
        unfold padZero at ih2 ⊢
        have e3 : (d :: e :: es).length - (fmtV (decVal (e :: es))).length
            = ((e :: es).length - (fmtV (decVal (e :: es))).length) + 1 := by
          simp only [List.length_cons] at hlen ⊢
          omega
        rw [e3, List.replicate_succ, List.cons_append, ih2, hd]
    · have hcan : (d :: rest).head? ≠ some '0' := by simpa using hd
      rw [fmtV_decVal _ hds hne (Or.inr hcan)]
      simp [padZero]

/-! ## The block pattern on blocks in wire form -/

theorem linesText_cons (l : Str) (lines : List Str) :
    linesText (l :: lines) = l ++ '\n' :: linesText lines := by
  simp [linesText]

theorem linesText_append (l₁ l₂ : List Str) :
    linesText (l₁ ++ l₂) = linesText l₁ ++ linesText l₂ := by
  simp [linesText]

theorem textLinesAux_line (l more committed cur ls : Str) (hl : l.all isDot = true) :
    textLinesAux (l ++ '\n' :: more) committed cur ls
      = if (cur ++ l).isEmpty then (committed, '\n' :: more)
        else textLinesAux more (committed ++ (cur ++ l) ++ ['\n']) [] more := by
  induction l generalizing cur with
  | nil =>
    simp only [List.nil_append, List.append_nil]
    rw [textLinesAux]
    simp
  | cons c l ih =>
    simp only [List.all_cons, Bool.and_eq_true] at hl
    have hc : c ≠ '\n' := by
      have := hl.1
      simpa [isDot] using this
    rw [List.cons_append, textLinesAux]
    simp only [hc, if_false]
    rw [ih (cur ++ [c]) hl.2]
    simp

theorem textLinesAux_lines (lines : List Str) (rest committed ls : Str)
    (h : lines.all isTextLine = true) :
    textLinesAux (linesText lines ++ '\n' :: rest) committed [] ls
      = (committed ++ linesText lines, '\n' :: rest) := by
  induction lines generalizing committed ls with
  | nil =>
    simp only [linesText, List.map_nil, List.flatten_nil, List.nil_append, List.append_nil]
    rw [textLinesAux]
    simp
  | cons l lines ih =>
    simp only [List.all_cons, Bool.and_eq_true] at h
    have hl := h.1
    simp only [isTextLine, Bool.and_eq_true, Bool.not_eq_true', List.isEmpty_eq_false] at hl
    have e : linesText (l :: lines) ++ '\n' :: rest
        = l ++ '\n' :: (linesText lines ++ '\n' :: rest) := by
      rw [linesText_cons]
      simp
    rw [e, linesText_cons, textLinesAux_line l _ committed [] ls hl.2]
    have hne : ([] ++ l).isEmpty = false := by
      cases l with
      | nil => exact absurd rfl hl.1
      | cons _ _ => rfl
    simp only [hne, Bool.false_eq_true, if_false]
    rw [ih _ _ h.2]
    simp

theorem textLines_lines (lines : List Str) (rest : Str) (h : lines.all isTextLine = true) :
    textLines (linesText lines ++ '\n' :: rest) = (linesText lines, '\n' :: rest) := by
  unfold textLines
  rw [textLinesAux_lines lines rest [] _ h]
  simp

theorem textLinesAux_shape (cs committed cur ls : Str)
    (hc : ∃ L : List Str, L.all isTextLine = true ∧ committed = linesText L)
    (hcur : cur.all isDot = true) :
    ∃ L : List Str, L.all isTextLine = true
      ∧ (textLinesAux cs committed cur ls).1 = linesText L := by
  induction cs generalizing committed cur ls with
  | nil => simpa [textLinesAux] using hc
  | cons c cs ih =>
    rw [textLinesAux]
    by_cases h1 : c = '\n'
    · simp only [h1, if_true]
      by_cases h2 : cur.isEmpty = true
      · simpa [h2] using hc
      · simp only [h2, Bool.false_eq_true, if_false]
        obtain ⟨L, hL1, hL2⟩ := hc
        apply ih
        · refine ⟨L ++ [cur], ?_, ?_⟩
          · simp only [List.all_append, hL1, List.all_cons, List.all_nil, Bool.and_true,
              Bool.true_and, isTextLine, hcur]
            simpa using h2
          · rw [linesText_append, hL2]
            simp [linesText]
        · rfl
    · simp only [h1, if_false]
      apply ih _ _ _ hc
      simp only [List.all_append, hcur, List.all_cons, List.all_nil, Bool.and_true,
        Bool.true_and]
      simpa [isDot] using h1

theorem textLines_shape (cs : Str) :
    ∃ L : List Str, L.all isTextLine = true ∧ (textLines cs).1 = linesText L :=
  textLinesAux_shape cs [] [] cs ⟨[], rfl, rfl⟩ rfl

theorem findAllFrom_skip (cs : Str) (k : Nat) : findAllFrom cs k = findAllFrom (cs.drop k) 0 := by
  induction cs generalizing k with
  | nil => simp [findAllFrom]
  | cons c cs ih =>
    cases k with
    | zero => rfl
    | succ k =>
      rw [findAllFrom, ih k]
      rfl

theorem isTimeField_iff (s : Str) :
    isTimeField s = true ↔ s ≠ [] ∧ s.all isTimeChar = true := by
  cases s <;> simp [isTimeField]

theorem many1_run_cons (p : Char → Bool) (ds : Str) (c : Char) (rest : Str)
    (hds : ds.all p = true) (hne : ds ≠ []) (hc : p c = false) :
    many1 p (ds ++ c :: rest) = some (ds, c :: rest) :=
  many1_run p ds (c :: rest) hds hne (by simp [hc])

theorem matchBlockAt_digits (ds start stop : Str) (lines : List Str) (rest : Str)
    (hds : isGroup ds = true) (hstart : isTimeField start = true)
    (hstop : isTimeField stop = true) (hlines : lines.all isTextLine = true) :
    matchBlockAt (ds ++ '\n' :: (start ++ ' ' :: '-' :: '-' :: '>' :: ' ' ::
        (stop ++ '\n' :: (linesText lines ++ '\n' :: rest))))
      = some (⟨ds, start, stop, linesText lines⟩, rest) := by
  obtain ⟨n1, d1⟩ := (isGroup_iff ds).mp hds
  obtain ⟨n2, d2⟩ := (isTimeField_iff start).mp hstart
  obtain ⟨n3, d3⟩ := (isTimeField_iff stop).mp hstop
  have hhead : ((ds ++ '\n' :: (start ++ ' ' :: '-' :: '-' :: '>' :: ' ' ::
        (stop ++ '\n' :: (linesText lines ++ '\n' :: rest)))).head? == some '-') = false := by
    cases ds with
    | nil => exact absurd rfl n1
    | cons c cs =>
      simp only [List.all_cons, Bool.and_eq_true] at d1
      have : c ≠ '-' := by
        intro h
        rw [h] at d1
        exact absurd d1.1 (by decide)
      simp [this]
  unfold matchBlockAt
  simp only [hhead, Bool.false_eq_true, if_false, List.nil_append]
  rw [many1_run_cons isDigit ds '\n' _ d1 n1 rfl]
  simp only [Option.bind, lit, List.isPrefixOf, beq_self_eq_true, Bool.true_and, if_true,
    List.length_cons, List.length_nil, List.drop_succ_cons, List.drop_zero]
  rw [many1_run_cons isTimeChar start ' ' _ d2 n2 rfl]
  simp only [Option.bind, lit, List.isPrefixOf, beq_self_eq_true, Bool.true_and, if_true,
    List.length_cons, List.length_nil, List.drop_succ_cons, List.drop_zero, Bool.and_self]
  rw [many1_run_cons isTimeChar stop '\n' _ d3 n3 rfl]
  simp only [Option.bind, lit, List.isPrefixOf, beq_self_eq_true, Bool.true_and, if_true,
    List.length_cons, List.length_nil, List.drop_succ_cons, List.drop_zero]
  rw [textLines_lines lines rest hlines]
  simp

theorem matchBlockAt_minus (ds start stop : Str) (lines : List Str) (rest : Str)
    (hds : isGroup ds = true) (hstart : isTimeField start = true)
    (hstop : isTimeField stop = true) (hlines : lines.all isTextLine = true) :
    matchBlockAt ('-' :: (ds ++ '\n' :: (start ++ ' ' :: '-' :: '-' :: '>' :: ' ' ::
        (stop ++ '\n' :: (linesText lines ++ '\n' :: rest)))))
      = some (⟨'-' :: ds, start, stop, linesText lines⟩, rest) := by
  obtain ⟨n1, d1⟩ := (isGroup_iff ds).mp hds
  obtain ⟨n2, d2⟩ := (isTimeField_iff start).mp hstart
  obtain ⟨n3, d3⟩ := (isTimeField_iff stop).mp hstop
  unfold matchBlockAt
  simp only [List.head?_cons, beq_self_eq_true, if_true, List.tail_cons]
  rw [many1_run_cons isDigit ds '\n' _ d1 n1 rfl]
  simp only [Option.bind, lit, List.isPrefixOf, beq_self_eq_true, Bool.true_and, if_true,
    List.length_cons, List.length_nil, List.drop_succ_cons, List.drop_zero]
  rw [many1_run_cons isTimeChar start ' ' _ d2 n2 rfl]
  simp only [Option.bind, lit, List.isPrefixOf, beq_self_eq_true, Bool.true_and, if_true,
    List.length_cons, List.length_nil, List.drop_succ_cons, List.drop_zero, Bool.and_self]
  rw [many1_run_cons isTimeChar stop '\n' _ d3 n3 rfl]
  simp only [Option.bind, lit, List.isPrefixOf, beq_self_eq_true, Bool.true_and, if_true,
    List.length_cons, List.length_nil, List.drop_succ_cons, List.drop_zero]
  rw [textLines_lines lines rest hlines]
  simp

theorem matchBlockAt_wire (m : BlockMatch) (rest : Str) (hm : m.wellFormed) :
    matchBlockAt (m.wire ++ rest) = some (m, rest) := by
  obtain ⟨h1, h2, h3, lines, h4, h5⟩ := hm
  obtain ⟨number, start, stop, text⟩ := m
  simp only at h1 h2 h3 h5
  subst h5
  have e : (BlockMatch.mk number start stop (linesText lines)).wire ++ rest
      = number ++ '\n' :: (start ++ ' ' :: '-' :: '-' :: '>' :: ' ' ::
        (stop ++ '\n' :: (linesText lines ++ '\n' :: rest))) := by
    simp [BlockMatch.wire]
  rw [e]
  unfold isNumberLine at h1
  by_cases hh : (number.head? == some '-') = true
  · rw [if_pos hh] at h1
    cases number with
    | nil => simp at hh
    | cons c ds =>
      have hc : c = '-' := by simpa using hh
      subst hc
      exact matchBlockAt_minus ds start stop lines rest h1 h2 h3 h4
  · rw [if_neg hh] at h1
    exact matchBlockAt_digits number start stop lines rest h1 h2 h3 h4

theorem wire_ne_nil (m : BlockMatch) : m.wire ≠ [] := by
  simp [BlockMatch.wire]

theorem findAllFrom_wire (m : BlockMatch) (rest : Str) (hm : m.wellFormed) :
    findAllFrom (m.wire ++ rest) 0 = m :: findAllFrom rest 0 := by
  have hmatch := matchBlockAt_wire m rest hm
  cases hw : m.wire with
  | nil => exact absurd hw (wire_ne_nil m)
  | cons c cs =>
    rw [hw] at hmatch
    simp only [List.cons_append] at hmatch ⊢
    rw [findAllFrom, hmatch]
    simp only
    rw [findAllFrom_skip]
    congr 2
    simp

theorem findAllFrom_wires (blocks : List BlockMatch) (tail : Str)
    (h : ∀ m ∈ blocks, m.wellFormed) :
    findAllFrom ((blocks.map BlockMatch.wire).flatten ++ tail) 0
      = blocks ++ findAllFrom tail 0 := by
  induction blocks with
  | nil => rfl
  | cons m blocks ih =>
    simp only [List.map_cons, List.flatten_cons, List.append_assoc, List.cons_append]
    rw [findAllFrom_wire m _ (h m (List.mem_cons_self _ _)),
      ih (fun x hx => h x (List.mem_cons_of_mem _ hx))]

/-! ## What parsed entries satisfy -/

theorem matchBlockAt_text (cs : Str) (m : BlockMatch) (r : Str)
    (h : matchBlockAt cs = some (m, r)) :
    ∃ L : List Str, L.all isTextLine = true ∧ m.text = linesText L := by
  unfold matchBlockAt at h
  simp only [Option.bind_eq_some, Option.some.injEq, Prod.mk.injEq] at h
  obtain ⟨p1, _, r2, _, p3, _, r4, _, p5, _, r6, _, r7, _, hm, _⟩ := h
  rw [← hm]
  exact textLines_shape r6

theorem findAllFrom_text (cs : Str) (k : Nat) (m : BlockMatch) (h : m ∈ findAllFrom cs k) :
    ∃ L : List Str, L.all isTextLine = true ∧ m.text = linesText L := by
  induction cs generalizing k with
  | nil => simp [findAllFrom] at h
  | cons c cs ih =>
    cases k with
    | succ k =>
      rw [findAllFrom] at h
      exact ih k h
    | zero =>
      rw [findAllFrom] at h
      cases hm : matchBlockAt (c :: cs) with
      | none =>
        simp only [hm] at h
        exact ih 0 h
      | some p =>
        obtain ⟨m2, rest⟩ := p
        simp only [hm, List.mem_cons] at h
        rcases h with h | h
        · rw [h]
          exact matchBlockAt_text _ _ _ hm
        · exact ih _ h

theorem Atoi_range (s : Str) (n : Int) (h : Atoi s = .ok n) :
    -9223372036854775808 ≤ n ∧ n < 9223372036854775808 := by
  unfold Atoi at h
  simp only [intSize] at h
  have e : (2 : Nat) ^ (64 - 1) = 9223372036854775808 := by norm_num
  simp only [e] at h
  split_ifs at h
  all_goals simp only [Except.ok.injEq] at h
  all_goals subst h
  all_goals omega

theorem isGroup_fmtV (n : Nat) : isGroup (fmtV n) = true := by
  obtain ⟨h1, h2, _⟩ := fmtV_spec n
  exact (isGroup_iff _).mpr ⟨h2, h1⟩

theorem isNumberLine_Itoa (n : Int) : isNumberLine (Itoa n) = true := by
  unfold Itoa isNumberLine
  by_cases hn : n < 0
  · simp only [hn, if_true, List.head?_cons, beq_self_eq_true, List.tail_cons]
    exact isGroup_fmtV _
  · simp only [hn, if_false]
    have hg := isGroup_fmtV n.natAbs
    obtain ⟨h1, h2⟩ := (isGroup_iff _).mp hg
    have hhead : ((Nat.toDigits 10 n.natAbs).head? == some '-') = false := by
      change ((fmtV n.natAbs).head? == some '-') = false
      cases hf : fmtV n.natAbs with
      | nil => exact absurd hf h1
      | cons c cs =>
        rw [hf] at h2
        simp only [List.all_cons, Bool.and_eq_true] at h2
        have : c ≠ '-' := by
          intro h
          rw [h] at h2
          exact absurd h2.1 (by decide)
        simp [this]
    rw [hhead]
    exact hg

theorem Atoi_minus (ds : Str) (hds : ds.all isDigit = true) (hne : ds ≠ [])
    (hle : decVal ds ≤ 2 ^ 63) : Atoi ('-' :: ds) = .ok (-(decVal ds : Int)) := by
  have e3 : (2 : Nat) ^ (64 - 1) = 2 ^ 63 := rfl
  have hne2 : ds.isEmpty = false := by
    cases ds with
    | nil => exact absurd rfl hne
    | cons _ _ => rfl
  unfold Atoi
  simp only [List.head?_cons, beq_self_eq_true, Bool.true_or, if_true, List.tail_cons, hds,
    Bool.not_true, hne2, Bool.or_self, Bool.false_eq_true, if_false, intSize, e3, hle]

theorem Atoi_Itoa (n : Int) (h1 : -9223372036854775808 ≤ n) (h2 : n < 9223372036854775808) :
    Atoi (Itoa n) = .ok n := by
  obtain ⟨d1, d2, d3⟩ := fmtV_spec n.natAbs
  unfold Itoa
  by_cases hn : n < 0
  · simp only [hn, if_true]
    have := Atoi_minus (fmtV n.natAbs) d1 d2 (by rw [d3]; norm_num; omega)
    rw [d3] at this
    rw [show Nat.toDigits 10 n.natAbs = fmtV n.natAbs from rfl, this]
    congr 1
    omega
  · simp only [hn, if_false]
    have := Atoi_digits (fmtV n.natAbs) d1 d2 (by rw [d3]; norm_num; omega)
    rw [d3] at this
    rw [show Nat.toDigits 10 n.natAbs = fmtV n.natAbs from rfl, this]
    congr 1
    omega

theorem toMillis_lt (h m s ms : Int) : toMillis h m s ms < 4294967296 := by
  unfold toMillis u32
  simp only
  omega

theorem millis_lt (text : Str) (v : Nat) (h : MillisFromSrtFormat text = .ok v) :
    v < 4294967296 := by
  unfold MillisFromSrtFormat at h
  split at h
  · cases h
  · split at h
    · cases h
    · split at h
      · cases h
      · split at h
        · cases h
        · split at h
          · cases h
          · simp only [Except.ok.injEq] at h
            rw [← h]
            exact toMillis_lt _ _ _ _

theorem isTimeChar_of_isDigit (c : Char) (h : isDigit c = true) : isTimeChar c = true := by
  simp [isTimeChar, h]

theorem all_isTimeChar_of_digits (ds : Str) (h : ds.all isDigit = true) :
    ds.all isTimeChar = true := by
  rw [List.all_eq_true] at h ⊢
  exact fun c hc => isTimeChar_of_isDigit c (h c hc)

theorem isTimeField_MsToSrtFormat (ms : Nat) : isTimeField (MsToSrtFormat ms) = true := by
  obtain ⟨a1, a2, _⟩ := fmtV_spec (ms / (1000 * 60 * 60))
  obtain ⟨b1, _, _⟩ := padZero_spec 2 (ms % (1000 * 60 * 60) / (1000 * 60))
  obtain ⟨c1, _, _⟩ := padZero_spec 2 (ms % (1000 * 60 * 60) % (1000 * 60) / 1000)
  obtain ⟨d1, _, _⟩ := padZero_spec 3 (ms % (1000 * 60 * 60) % (1000 * 60) % 1000)
  rw [isTimeField_iff]
  unfold MsToSrtFormat
  refine ⟨?_, ?_⟩
  · intro h
    simp at h
  · simp only [List.all_append, all_isTimeChar_of_digits _ a1, all_isTimeChar_of_digits _ b1,
      all_isTimeChar_of_digits _ c1, all_isTimeChar_of_digits _ d1, Bool.and_true,
      Bool.true_and, List.all_cons, List.all_nil]
    decide

/-! ## Parsing the text of a collection -/

theorem parseLoop_ok (ms : List BlockMatch) (entries : List Subtitle) (srt : Srt)
    (h : List.Forall₂
      (fun m e => NewSubtitleFromString m.number m.start m.stop m.text = .ok e) ms entries) :
    parseLoop ms srt
      = .ok { Subtitles := srt.Subtitles ++ entries, count := srt.count + liveCount entries } := by
  induction h generalizing srt with
  | nil => simp [parseLoop, liveCount]
  | cons hme _ ih =>
    rw [parseLoop, hme]
    simp only
    rw [ih]
    simp only [List.append_assoc, List.singleton_append, liveCount_cons]
    congr 2
    split <;> split <;> first | (simp_all; done) | (simp_all; omega)

theorem newSubtitle_ok (a b c d : Str) (e : Subtitle)
    (h : NewSubtitleFromString a b c d = .ok e) :
    Atoi a = .ok e.Num ∧ MillisFromSrtFormat b = .ok e.StartMs
      ∧ MillisFromSrtFormat c = .ok e.EndMs ∧ e.Text = d := by
  unfold NewSubtitleFromString at h
  cases h1 : Atoi a with
  | error x => simp [h1] at h
  | ok n =>
    cases h2 : MillisFromSrtFormat b with
    | error x => simp [h1, h2] at h
    | ok s =>
      cases h3 : MillisFromSrtFormat c with
      | error x => simp [h1, h2, h3] at h
      | ok t =>
        simp only [h1, h2, h3, Except.ok.injEq] at h
        subst h
        exact ⟨rfl, rfl, rfl, rfl⟩

theorem parseLoop_entries (P : Subtitle → Prop) (ms : List BlockMatch) (srt s : Srt)
    (h : parseLoop ms srt = .ok s)
    (hm : ∀ m ∈ ms, ∀ e, NewSubtitleFromString m.number m.start m.stop m.text = .ok e → P e)
    (h0 : ∀ e ∈ srt.Subtitles, P e) : ∀ e ∈ s.Subtitles, P e := by
  induction ms generalizing srt with
  | nil =>
    simp only [parseLoop, Except.ok.injEq] at h
    rw [← h]
    exact h0
  | cons m ms ih =>
    rw [parseLoop] at h
    cases hc : NewSubtitleFromString m.number m.start m.stop m.text with
    | error x => simp [hc] at h
    | ok sub =>
      simp only [hc] at h
      refine ih _ h (fun x hx => hm x (List.mem_cons_of_mem _ hx)) ?_
      intro e he
      simp only [List.mem_append, List.mem_singleton] at he
      rcases he with he | he
      · exact h0 e he
      · rw [he]
        exact hm m (List.mem_cons_self _ _) sub hc

/-- What every entry of a parsed collection satisfies: the number fits `int`, the times
are `uint32` values and the text is made of text lines. -/
theorem parsed_entries (str : Str) (c : Srt) (h : NewSrtFromString str = .ok c) :
    ∀ e ∈ c.Subtitles,
      (-9223372036854775808 ≤ e.Num ∧ e.Num < 9223372036854775808)
      ∧ e.StartMs < 4294967296 ∧ e.EndMs < 4294967296
      ∧ ∃ L : List Str, L.all isTextLine = true ∧ e.Text = linesText L := by
  unfold NewSrtFromString FindAllStringSubmatch at h
  refine parseLoop_entries _ _ _ _ h ?_ (by simp)
  intro m hm e he
  obtain ⟨h1, h2, h3, h4⟩ := newSubtitle_ok _ _ _ _ _ he
  refine ⟨Atoi_range _ _ h1, millis_lt _ _ h2, millis_lt _ _ h3, ?_⟩
  rw [h4]
  exact findAllFrom_text _ _ _ hm

theorem string_eq_wires (s : Srt) :
    s.String = (((s.Subtitles.filter fun sub => !sub.IsDeleted).map Subtitle.pieces).map
        BlockMatch.wire).flatten ++ ['\n'] := by
  show (ForEach (fun _ sub (sb : Str) => (sub, sb ++ sub.String, true)) s.Subtitles []).2.2
      ++ ['\n'] = _
  unfold ForEach
  rw [string_from, List.map_map]
  rfl

theorem newSubtitle_pieces (e : Subtitle)
    (h1 : -9223372036854775808 ≤ e.Num) (h2 : e.Num < 9223372036854775808)
    (h3 : e.StartMs < 4294967296) (h4 : e.EndMs < 4294967296) :
    NewSubtitleFromString e.pieces.number e.pieces.start e.pieces.stop e.pieces.text
      = .ok e := by
  unfold NewSubtitleFromString Subtitle.pieces
  simp only [Atoi_Itoa e.Num h1 h2, roundtrip_u32 _ h3, roundtrip_u32 _ h4]

theorem pieces_wellFormed (e : Subtitle)
    (h : ∃ L : List Str, L.all isTextLine = true ∧ e.Text = linesText L) :
    e.pieces.wellFormed :=
  ⟨isNumberLine_Itoa _, isTimeField_MsToSrtFormat _, isTimeField_MsToSrtFormat _, h⟩

/-- The parse of the text of a parsed collection. -/
theorem reparse (str : Str) (c : Srt) (h : NewSrtFromString str = .ok c) :
    NewSrtFromString c.String
      = .ok { Subtitles := c.Subtitles.filter fun sub => !sub.IsDeleted,
              count := liveCount c.Subtitles } := by
  have hp := parsed_entries str c h
  have hlive : ∀ e ∈ c.Subtitles.filter (fun sub => !sub.IsDeleted),
      e ∈ c.Subtitles ∧ e.IsDeleted = false := by
    intro e he
    have := List.mem_filter.mp he
    exact ⟨this.1, by simpa using this.2⟩
  unfold NewSrtFromString FindAllStringSubmatch
  rw [string_eq_wires, List.append_assoc,
    findAllFrom_wires _ _ (by
      intro m hm
      obtain ⟨e, he, rfl⟩ := List.mem_map.mp hm
      exact pieces_wellFormed e (hp e (hlive e he).1).2.2.2)]
  have htail : findAllFrom (['\n'] ++ ['\n', '\n']) 0 = [] := by decide
  rw [htail, List.append_nil, parseLoop_ok _ (c.Subtitles.filter fun sub => !sub.IsDeleted)]
  · simp only [List.nil_append, zero_add]
    congr 2
    unfold liveCount
    rw [List.filter_filter]
    simp
  · rw [List.forall₂_map_left_iff]
    refine List.forall₂_same.mpr ?_
    intro e he
    obtain ⟨⟨h1, h2⟩, h3, h4, _⟩ := hp e (hlive e he).1
    exact newSubtitle_pieces e h1 h2 h3 h4

/-! ## Parsing valid blocks -/

theorem isTimeField_text (g : TimeMatch) (hg : g.shaped = true) :
    isTimeField g.text = true := by
  simp only [TimeMatch.shaped, Bool.and_eq_true, isGroup_iff] at hg
  obtain ⟨⟨⟨⟨n1, d1⟩, _, d3⟩, _, d5⟩, _, d7⟩ := hg
  rw [isTimeField_iff]
  unfold TimeMatch.text
  refine ⟨by simp, ?_⟩
  simp only [List.all_append, all_isTimeChar_of_digits _ d1, all_isTimeChar_of_digits _ d3,
    all_isTimeChar_of_digits _ d5, all_isTimeChar_of_digits _ d7, Bool.and_true,
    Bool.true_and, List.all_cons, List.all_nil]
  decide

theorem millis_text (g : TimeMatch) (hg : g.shaped = true) (hf : g.fitsInt = true) :
    MillisFromSrtFormat g.text = .ok g.millis := by
  simp only [TimeMatch.shaped, Bool.and_eq_true, isGroup_iff] at hg
  obtain ⟨⟨⟨⟨n1, d1⟩, n3, d3⟩, n5, d5⟩, n7, d7⟩ := hg
  simp only [TimeMatch.fitsInt, Bool.and_eq_true, decide_eq_true_eq] at hf
  obtain ⟨⟨⟨b1, b3⟩, b5⟩, b7⟩ := hf
  exact millis_groups g.h g.min g.sec g.ms d1 n1 d3 n3 d5 n5 d7 n7 b1 b3 b5 b7

theorem Atoi_numberLine (s : Str) (hs : isNumberLine s = true)
    (h1 : -9223372036854775808 ≤ numberValue s) (h2 : numberValue s < 9223372036854775808) :
    Atoi s = .ok (numberValue s) := by
  unfold isNumberLine at hs
  unfold numberValue at h1 h2 ⊢
  by_cases hh : (s.head? == some '-') = true
  · simp only [hh, if_true] at hs h1 h2 ⊢
    cases s with
    | nil => simp at hh
    | cons c ds =>
      have hc : c = '-' := by simpa using hh
      subst hc
      obtain ⟨n, d⟩ := (isGroup_iff _).mp hs
      simp only [List.tail_cons] at h1 h2 ⊢
      exact Atoi_minus ds d n (by norm_num; omega)
  · simp only [hh, Bool.false_eq_true, if_false] at hs h1 h2 ⊢
    obtain ⟨n, d⟩ := (isGroup_iff _).mp hs
    exact Atoi_digits s d n (by norm_num; omega)

theorem block_wellFormed (b : Block) (h : b.valid = true) : b.pieces.wellFormed := by
  simp only [Block.valid, Bool.and_eq_true] at h
  obtain ⟨⟨⟨h1, h2⟩, h3⟩, h4⟩ := h
  exact ⟨h1, isTimeField_text _ h2, isTimeField_text _ h3, b.lines, h4, rfl⟩

theorem block_entry (b : Block) (h : b.valid = true) (hf : b.fitsInt = true) :
    NewSubtitleFromString b.pieces.number b.pieces.start b.pieces.stop b.pieces.text
      = .ok b.entry := by
  simp only [Block.valid, Bool.and_eq_true] at h
  obtain ⟨⟨⟨h1, h2⟩, h3⟩, h4⟩ := h
  simp only [Block.fitsInt, Bool.and_eq_true, decide_eq_true_eq] at hf
  obtain ⟨⟨⟨f1, f2⟩, f3⟩, f4⟩ := hf
  unfold NewSubtitleFromString Block.pieces Block.entry
  simp only [Atoi_numberLine _ h1 f1 f2, millis_text _ h2 f3, millis_text _ h3 f4]

theorem liveCount_entries (blocks : List Block) :
    liveCount (blocks.map Block.entry)
      = ((blocks.filter fun b => decide (numberValue b.number ≠ -1)).length : Int) := by
  induction blocks with
  | nil => rfl
  | cons b blocks ih =>
    rw [List.map_cons, liveCount_cons, ih, List.filter_cons]
    by_cases hb : numberValue b.number = -1
    · simp [hb, Block.entry, Subtitle.IsDeleted]
    · simp [hb, Block.entry, Subtitle.IsDeleted]
      omega

/-- The parse of a text made of valid blocks whose numbers fit `int`; `tail` is what the
text lacks at its end. -/
theorem parse_blocks (blocks : List Block) (text tail : Str)
    (hv : ∀ b ∈ blocks, b.valid = true ∧ b.fitsInt = true)
    (htext : text ++ tail = (blocks.map fun b => b.pieces.wire).flatten)
    (htail : tail = [] ∨ tail = ['\n'] ∨ tail = ['\n', '\n']) :
    NewSrtFromString text
      = .ok { Subtitles := blocks.map Block.entry,
              count := ((blocks.filter fun b => decide (numberValue b.number ≠ -1)).length
                : Int) } := by
  have hfind : FindAllStringSubmatch (text ++ ['\n', '\n']) = blocks.map Block.pieces := by
    have hw : ∀ t : Str, findAllFrom (((blocks.map Block.pieces).map BlockMatch.wire).flatten
        ++ t) 0 = blocks.map Block.pieces ++ findAllFrom t 0 := by
      intro t
      apply findAllFrom_wires
      intro m hm
      obtain ⟨b, hb, rfl⟩ := List.mem_map.mp hm
      exact block_wellFormed b (hv b hb).1
    rw [List.map_map] at hw
    have hfull : (blocks.map fun b => b.pieces.wire)
        = List.map (BlockMatch.wire ∘ Block.pieces) blocks := rfl
    rw [hfull] at htext
    unfold FindAllStringSubmatch
    rcases htail with h | h | h
    · rw [h, List.append_nil] at htext
      rw [htext, hw]
      simp only [List.append_right_eq_self]
      decide
    · have e : text ++ ['\n', '\n'] = (text ++ tail) ++ ['\n'] := by rw [h]; simp
      rw [e, htext, hw]
      simp only [List.append_right_eq_self]
      decide
    · have e : text ++ ['\n', '\n'] = (text ++ tail) ++ [] := by rw [h]; simp
      rw [e, htext, hw]
      simp only [List.append_right_eq_self]
      decide
  unfold NewSrtFromString
  rw [hfind, parseLoop_ok _ (blocks.map Block.entry)]
  · simp only [List.nil_append, zero_add, liveCount_entries]
  · rw [List.forall₂_map_left_iff, List.forall₂_map_right_iff]
    refine List.forall₂_same.mpr ?_
    intro b hb
    exact block_entry b (hv b hb).1 (hv b hb).2

/-! ## Canonical timestamps -/

theorem decVal_lt_pow (ds : Str) (hds : ds.all isDigit = true) :
    decVal ds < 10 ^ ds.length := by
  induction ds using List.reverseRecOn with
  | nil => simp [decVal]
  | append_singleton init c ih =>
    rw [List.all_append, Bool.and_eq_true] at hds
    have hc : isDigit c = true := by simpa using hds.2
    obtain ⟨_, hc2⟩ := digitChar_val c hc
    have := ih hds.1
    rw [decVal_append_singleton, List.length_append, List.length_singleton, pow_succ]
    omega

/-- The text of a timestamp in canonical form is what `MsToSrtFormat` prints for its
value. -/
theorem format_canonical (g : TimeMatch) (hs : g.shaped = true)
    (hh : g.h = ['0'] ∨ g.h.head? ≠ some '0')
    (hm : g.min.length = 2) (hm2 : decVal g.min ≤ 59)
    (hsec : g.sec.length = 2) (hsec2 : decVal g.sec ≤ 59)
    (hms : g.ms.length = 3)
    (htot : decVal g.ms + decVal g.sec * 1000 + decVal g.min * 60000
      + decVal g.h * 3600000 < 4294967296) :
    MillisFromSrtFormat g.text = .ok (decVal g.ms + decVal g.sec * 1000
      + decVal g.min * 60000 + decVal g.h * 3600000)
    ∧ MsToSrtFormat (decVal g.ms + decVal g.sec * 1000 + decVal g.min * 60000
      + decVal g.h * 3600000) = g.text := by
  have hs2 := hs
  simp only [TimeMatch.shaped, Bool.and_eq_true, isGroup_iff] at hs2
  obtain ⟨⟨⟨⟨n1, d1⟩, n3, d3⟩, n5, d5⟩, n7, d7⟩ := hs2
  have hmsv : decVal g.ms < 1000 := by
    have := decVal_lt_pow g.ms d7
    rw [hms] at this
    omega
  constructor
  · have := millis_text g hs (by
      simp only [TimeMatch.fitsInt, Bool.and_eq_true, decide_eq_true_eq]
      norm_num
      omega)
    rw [this, TimeMatch.millis, Nat.mod_eq_of_lt htot]
  · unfold MsToSrtFormat TimeMatch.text
    have e1 : (decVal g.ms + decVal g.sec * 1000 + decVal g.min * 60000
        + decVal g.h * 3600000) / (1000 * 60 * 60) = decVal g.h := by omega
    have e2 : (decVal g.ms + decVal g.sec * 1000 + decVal g.min * 60000
        + decVal g.h * 3600000) % (1000 * 60 * 60) / (1000 * 60) = decVal g.min := by omega
    have e3 : (decVal g.ms + decVal g.sec * 1000 + decVal g.min * 60000
        + decVal g.h * 3600000) % (1000 * 60 * 60) % (1000 * 60) / 1000 = decVal g.sec := by
      omega
    have e4 : (decVal g.ms + decVal g.sec * 1000 + decVal g.min * 60000
        + decVal g.h * 3600000) % (1000 * 60 * 60) % (1000 * 60) % 1000 = decVal g.ms := by
      omega
    simp only [e1, e2, e3, e4]
    have p2 := padZero_decVal g.min d3 n3
    have p3 := padZero_decVal g.sec d5 n5
    have p4 := padZero_decVal g.ms d7 n7
    rw [hm] at p2
    rw [hsec] at p3
    rw [hms] at p4
    rw [fmtV_decVal g.h d1 n1 hh, p2, p3, p4]

/-! ## One entry under `Cut` -/

/-- What `Cut` does to one entry, in natural numbers. -/
theorem cut_entry (start stop : Nat) (hse : start ≤ stop) (hstop : stop < 4294967296)
    (a b : Subtitle) (hw : a.IsDeleted = false → a.StartMs < 4294967296)
    (hb : b = if a.IsDeleted = true then a
      else if (decide (start ≤ a.StartMs) && decide (a.StartMs < stop)) = true then
        a.MarkAsDeleted
      else if stop ≤ a.StartMs then
        { a with StartMs := sub32 a.StartMs (sub32 stop start),
                 EndMs := sub32 a.EndMs (sub32 stop start) }
      else a) :
    (b.IsDeleted = false →
      a.IsDeleted = false
      ∧ ((a.StartMs < start ∧ b = a)
        ∨ (stop ≤ a.StartMs
          ∧ b = { a with StartMs := a.StartMs - (stop - start),
                         EndMs := sub32 a.EndMs (stop - start) })))
    ∧ (a.IsDeleted = false → stop ≤ a.StartMs →
        b = { a with StartMs := a.StartMs - (stop - start),
                     EndMs := sub32 a.EndMs (stop - start) }) := by
  subst hb
  have hdur : sub32 stop start = stop - start := by
    unfold sub32 u32
    omega
  have hshift : a.IsDeleted = false → stop ≤ a.StartMs →
      sub32 a.StartMs (stop - start) = a.StartMs - (stop - start) := by
    intro h1 h2
    have := hw h1
    unfold sub32 u32
    omega
  by_cases hd : a.IsDeleted = true
  · rw [if_pos hd]
    refine ⟨fun hb => ?_, fun h => ?_⟩
    · rw [hd] at hb
      exact absurd hb (by decide)
    · rw [hd] at h
      exact absurd h (by decide)
  · have hd2 : a.IsDeleted = false := by simpa using hd
    rw [if_neg hd]
    by_cases hp : (decide (start ≤ a.StartMs) && decide (a.StartMs < stop)) = true
    · rw [if_pos hp]
      have hp2 : start ≤ a.StartMs ∧ a.StartMs < stop := by simpa using hp
      refine ⟨fun hb => ?_, fun _ h => ?_⟩
      · exact absurd hb (by simp [Subtitle.MarkAsDeleted, Subtitle.IsDeleted])
      · omega
    · rw [if_neg hp]
      have hp2 : ¬(start ≤ a.StartMs ∧ a.StartMs < stop) := by
        intro hh
        exact hp (by simp [hh.1, hh.2])
      by_cases h3 : stop ≤ a.StartMs
      · rw [if_pos h3, hdur, hshift hd2 h3]
        exact ⟨fun _ => ⟨hd2, Or.inr ⟨h3, rfl⟩⟩, fun _ _ => rfl⟩
      · rw [if_neg h3]
        exact ⟨fun _ => ⟨hd2, Or.inl ⟨by omega, rfl⟩⟩, fun _ h => absurd h h3⟩

/-! ## More concrete runs -/

set_option maxRecDepth 1000000 in
theorem newSrtInput_run :
    (NewSrtFromString newSrtInput).map (fun s => (s.Subtitles.length, s.GetCount))
      = .ok (4, 4) := by decide

set_option maxRecDepth 1000000 in
theorem srtStringInput_run : NewSrtFromString srtStringInput = .ok srtStringSrt := by decide

set_option maxRecDepth 1000000 in
theorem bigNumberBlock_run :
    bigNumberBlock.valid = true
    ∧ NewSrtFromString bigNumberBlock.pieces.wire = .error .atoiRange := by decide

set_option maxRecDepth 1000000 in
theorem sampleBlocks_run :
    (∀ b ∈ sampleBlocks, b.valid = true ∧ b.fitsInt = true)
    ∧ ("7\n0:00:00,000 --> 0:00:10,000\nhi\n\n-1\n0:00:10,000 --> 0:00:10,000".toList
        ++ ['\n', '\n'] = (sampleBlocks.map fun b => b.pieces.wire).flatten) := by decide

set_option maxRecDepth 1000000 in
theorem offsetTime_run :
    MillisFromSrtFormat ['x', '1', ':', '2', ':', '3', ',', '4', 'y'] = .ok 3723004
    ∧ MillisFromSrtFormat ['0', ':', '0', '0', ':', '2', '0']
        = .error (.wrongFormat ['0', ':', '0', '0', ':', '2', '0']) := by decide

theorem string_of_live (s : Srt) (c : Int) :
    Srt.String { Subtitles := s.Subtitles.filter fun sub => !sub.IsDeleted, count := c }
      = s.String := by
  rw [string_eq_wires, string_eq_wires]
  simp only [List.filter_filter, Bool.and_self]

/-! ## The leftmost timestamp of a text -/

theorem matchTimeAt_none_iff (cs : Str) :
    matchTimeAt cs = none ↔
      ¬ ∃ (g : TimeMatch) (post : Str), g.shaped = true ∧ cs = g.text ++ post := by
  constructor
  · rintro hnone ⟨g, post, hg, ht⟩
    rw [ht, matchTimeAt_text g post hg] at hnone
    cases hnone
  · intro h
    cases hm : matchTimeAt cs with
    | none => rfl
    | some m =>
      obtain ⟨h1, rest, h2⟩ := matchTimeAt_some _ _ hm
      exact absurd ⟨m, rest, h1, h2⟩ h

theorem findTime_leftmost (pre suf : Str) (m : TimeMatch) (hm : matchTimeAt suf = some m)
    (hpre : ∀ pre1 pre2 : Str, pre = pre1 ++ pre2 → pre2 ≠ [] →
      matchTimeAt (pre2 ++ suf) = none) :
    findTime (pre ++ suf) = some m := by
  induction pre with
  | nil =>
    cases suf with
    | nil => simp [matchTimeAt, many1] at hm
    | cons c cs =>
      simp only [List.nil_append]
      rw [findTime, hm]
  | cons c pre ih =>
    have h0 := hpre [] (c :: pre) rfl (by simp)
    simp only [List.cons_append] at h0 ⊢
    rw [findTime, h0]
    exact ih (fun p1 p2 hp hne => hpre (c :: p1) p2 (by rw [hp]; rfl) hne)

theorem Atoi_big (ds : Str) (hds : ds.all isDigit = true) (hne : ds ≠ [])
    (hge : ¬ decVal ds < 2 ^ 63) : Atoi ds = .error .atoiRange := by
  cases ds with
  | nil => exact absurd rfl hne
  | cons c cs =>
    have hc : isDigit c = true := by
      simp only [List.all_cons, Bool.and_eq_true] at hds
      exact hds.1
    have h1 : c ≠ '-' := by
      intro h; rw [h] at hc; exact absurd hc (by decide)
    have h2 : c ≠ '+' := by
      intro h; rw [h] at hc; exact absurd hc (by decide)
    have e1 : (some c == some '-') = false := by simp [h1]
    have e2 : (some c == some '+') = false := by simp [h2]
    have e3 : (2 : Nat) ^ (64 - 1) = 2 ^ 63 := rfl
    unfold Atoi
    simp only [List.head?_cons, e1, e2, Bool.or_self, Bool.false_eq_true, if_false, hds,
      Bool.not_true, List.isEmpty_cons, intSize, e3, hge]

/-- The result of `MillisFromSrtFormat` when the pattern finds the four groups `g`. -/
theorem millis_of_find (text : Str) (g : TimeMatch) (hf : findTime text = some g)
    (hg : g.shaped = true) :
    MillisFromSrtFormat text = if g.fitsInt = true then .ok g.millis else .error .atoiRange := by
  have hg2 := hg
  simp only [TimeMatch.shaped, Bool.and_eq_true, isGroup_iff] at hg2
  obtain ⟨⟨⟨⟨n1, d1⟩, n3, d3⟩, n5, d5⟩, n7, d7⟩ := hg2
  unfold MillisFromSrtFormat
  rw [hf]
  simp only
  by_cases b1 : decVal g.h < 2 ^ 63
  · rw [Atoi_digits g.h d1 n1 b1]
    simp only
    by_cases b3 : decVal g.min < 2 ^ 63
    · rw [Atoi_digits g.min d3 n3 b3]
      simp only
      by_cases b5 : decVal g.sec < 2 ^ 63
      · rw [Atoi_digits g.sec d5 n5 b5]
        simp only
        by_cases b7 : decVal g.ms < 2 ^ 63
        · rw [Atoi_digits g.ms d7 n7 b7]
          simp only [toMillis_natCast, TimeMatch.fitsInt, b1, b3, b5, b7, decide_True,
            Bool.and_self, if_true, TimeMatch.millis]
        · rw [Atoi_big g.ms d7 n7 b7]
          have hfit : g.fitsInt = false := by
            simp only [TimeMatch.fitsInt, b7, decide_False, Bool.and_false]
          simp only [hfit, Bool.false_eq_true, if_false]
      · rw [Atoi_big g.sec d5 n5 b5]
        have hfit : g.fitsInt = false := by
          simp only [TimeMatch.fitsInt, b5, decide_False, Bool.and_false, Bool.false_and]
        simp only [hfit, Bool.false_eq_true, if_false]
    · rw [Atoi_big g.min d3 n3 b3]
      have hfit : g.fitsInt = false := by
        simp only [TimeMatch.fitsInt, b3, decide_False, Bool.and_false, Bool.false_and]
      simp only [hfit, Bool.false_eq_true, if_false]
  · rw [Atoi_big g.h d1 n1 b1]
    have hfit : g.fitsInt = false := by
      simp only [TimeMatch.fitsInt, b1, decide_False, Bool.and_false, Bool.false_and]
    simp only [hfit, Bool.false_eq_true, if_false]

/-- In a text the piece of the shape that starts first, taken up to the end of its last
run of digits, is the one that is read. -/
theorem millis_leftmost (pre : Str) (g : TimeMatch) (post : Str) (hg : g.shaped = true)
    (hpost : post.head?.all (fun c => !isDigit c) = true)
    (hpre : ∀ pre1 pre2 : Str, pre = pre1 ++ pre2 → pre2 ≠ [] →
      ¬ ∃ (g2 : TimeMatch) (post2 : Str),
          g2.shaped = true ∧ pre2 ++ (g.text ++ post) = g2.text ++ post2) :
    MillisFromSrtFormat (pre ++ g.text ++ post)
      = if g.fitsInt = true then .ok g.millis else .error .atoiRange := by
  have htw : post.takeWhile isDigit = [] := by
    cases post with
    | nil => rfl
    | cons c cs =>
      have : isDigit c = false := by simpa using hpost
      simp [List.takeWhile_cons, this]
  have hm : matchTimeAt (g.text ++ post) = some g := by
    rw [matchTimeAt_text g post hg, htw, List.append_nil]
  rw [List.append_assoc]
  exact millis_of_find _ g
    (findTime_leftmost pre _ g hm
      (fun p1 p2 hp hne => (matchTimeAt_none_iff _).mpr (hpre p1 p2 hp hne))) hg

theorem no_piece_in_nondigits (pre suf : Str)
    (h : pre.all (fun c => !isDigit c) = true) :
    ∀ pre1 pre2 : Str, pre = pre1 ++ pre2 → pre2 ≠ [] →
      ¬ ∃ (g2 : TimeMatch) (post2 : Str),
          g2.shaped = true ∧ pre2 ++ suf = g2.text ++ post2 := by
  rintro pre1 pre2 hp hne ⟨g2, post2, hg2, heq⟩
  simp only [TimeMatch.shaped, Bool.and_eq_true, isGroup_iff] at hg2
  obtain ⟨⟨⟨⟨n1, d1⟩, _⟩, _⟩, _⟩ := hg2
  cases pre2 with
  | nil => exact hne rfl
  | cons c r =>
    have hc : (!isDigit c) = true := by
      rw [List.all_eq_true] at h
      exact h c (by rw [hp]; simp)
    cases hh : g2.h with
    | nil => exact n1 hh
    | cons d ds =>
      rw [hh] at d1
      simp only [List.all_cons, Bool.and_eq_true] at d1
      simp only [TimeMatch.text, hh, List.cons_append, List.cons.injEq] at heq
      rw [← heq.1] at d1
      rw [d1.1] at hc
      exact absurd hc (by decide)

/-! ## The claims, continued -/

/-- C11. `DeleteByDuration(d)` marks as deleted exactly the live entries whose
`EndMs - StartMs`, a difference of `uint32`, is at most `d`, and changes nothing else;
that difference is `EndMs + 2^32 - StartMs` when `EndMs < StartMs`. It returns the number
of entries it marks and lowers the cached count and the number of live entries by it.
With cues of 10, 5, 10, 10, 5 and 5 seconds and `d = 5000` it deletes 3. -/
theorem deleteByDuration_spec (s : Srt) (d : Nat) :
    (s.DeleteByDuration d).1.Subtitles = s.Subtitles.map (fun sub =>
        if sub.IsDeleted then sub
        else if sub32 sub.EndMs sub.StartMs ≤ d then { sub with Num := -1 } else sub)
    ∧ (∀ a b : Nat, a < b → b < 4294967296 → sub32 a b = a + 4294967296 - b)
    ∧ (∀ a b : Nat, b ≤ a → a < 4294967296 → sub32 a b = a - b)
    ∧ (s.DeleteByDuration d).2 = ((s.Subtitles.filter fun sub =>
        !sub.IsDeleted && decide (sub32 sub.EndMs sub.StartMs ≤ d)).length : Int)
    ∧ (s.DeleteByDuration d).1.GetCount = s.GetCount - (s.DeleteByDuration d).2
    ∧ liveCount (s.DeleteByDuration d).1.Subtitles
        = liveCount s.Subtitles - (s.DeleteByDuration d).2
    ∧ NewSrtFromString durationInput = .ok durationSrt
    ∧ (durationSrt.DeleteByDuration 5000).2 = 3 := by
  have hrun : s.DeleteByDuration d
      = s.DeleteIf (fun _ sub => decide (sub32 sub.EndMs sub.StartMs ≤ d)) := rfl
  have h2 := liveCount_edit (fun sub => decide (sub32 sub.EndMs sub.StartMs ≤ d))
    (fun sub => sub) (fun sub hs => hs) s.Subtitles
  refine ⟨?_, ?_, ?_, ?_, ?_, ?_, durationInput_run, by decide⟩
  · rw [hrun, deleteIf_run]
    apply List.map_congr_left
    intro sub _
    by_cases h1 : sub32 sub.EndMs sub.StartMs ≤ d <;> simp [h1, Subtitle.MarkAsDeleted]
  · intro a b h1 h3
    unfold sub32 u32
    omega
  · intro a b h1 h3
    unfold sub32 u32
    omega
  · rw [hrun, deleteIf_run]
  · rw [hrun, deleteIf_run]
    rfl
  · rw [hrun, deleteIf_run]
    exact h2

/-- Witness of C11: the `uint32` difference of 10 and 20, and of 20 and 10. -/
theorem deleteByDuration_spec_witness :
    sub32 10 20 = 10 + 4294967296 - 20 ∧ sub32 20 10 = 20 - 10 :=
  ⟨(deleteByDuration_spec durationSrt 5000).2.1 10 20 (by decide) (by decide),
    (deleteByDuration_spec durationSrt 5000).2.2.1 20 10 (by decide) (by decide)⟩

/-- C12. `DeleteEmpty` marks a live entry as deleted if and only if every character of
its text is white space (so also when the text is empty); every other entry is left as
it is. It returns the number of entries it marks and lowers the cached count and the
number of live entries by it. With the texts `aaa`, none, none, `bbb`, three spaces and
none it deletes 4. -/
theorem deleteEmpty_spec (s : Srt) :
    s.DeleteEmpty.1.Subtitles = s.Subtitles.map (fun sub =>
        if sub.IsDeleted then sub
        else if sub.Text.all isSpace then { sub with Num := -1 } else sub)
    ∧ s.DeleteEmpty.2 = ((s.Subtitles.filter fun sub =>
        !sub.IsDeleted && sub.Text.all isSpace).length : Int)
    ∧ s.DeleteEmpty.1.GetCount = s.GetCount - s.DeleteEmpty.2
    ∧ liveCount s.DeleteEmpty.1.Subtitles = liveCount s.Subtitles - s.DeleteEmpty.2
    ∧ NewSrtFromString emptyInput = .ok emptySrt
    ∧ emptySrt.DeleteEmpty.2 = 4 := by
  have hrun : s.DeleteEmpty = s.DeleteIf (fun _ sub => sub.Text.all isSpace) := by
    unfold Srt.DeleteEmpty
    simp only [trimSpace_isEmpty]
  have h2 := liveCount_edit (fun sub => sub.Text.all isSpace)
    (fun sub => sub) (fun sub hs => hs) s.Subtitles
  refine ⟨?_, ?_, ?_, ?_, emptyInput_run, by decide⟩
  · rw [hrun, deleteIf_run]
    rfl
  · rw [hrun, deleteIf_run]
  · rw [hrun, deleteIf_run]
    rfl
  · rw [hrun, deleteIf_run]
    exact h2

/-- C13 as stated fails. The text `x1:2:3,4y` is not, as a whole, of the shape
`digits:digits:digits,digits`, yet `MillisFromSrtFormat` returns the value 3723004 of
`1:2:3,4`: the pattern is searched for in the text. -/
theorem timestamp_inside_text_is_read :
    (¬ ∃ g : TimeMatch, g.shaped = true
        ∧ ['x', '1', ':', '2', ':', '3', ',', '4', 'y'] = g.text)
    ∧ MillisFromSrtFormat ['x', '1', ':', '2', ':', '3', ',', '4', 'y'] = .ok 3723004 := by
  refine ⟨?_, offsetTime_run.1⟩
  rintro ⟨g, hg, ht⟩
  simp only [TimeMatch.shaped, Bool.and_eq_true, isGroup_iff] at hg
  obtain ⟨⟨⟨⟨n1, d1⟩, _⟩, _⟩, _⟩ := hg
  cases hh : g.h with
  | nil => exact n1 hh
  | cons c cs =>
    rw [hh] at d1
    simp only [TimeMatch.text, hh, List.cons_append, List.cons.injEq] at ht
    simp only [List.all_cons, Bool.and_eq_true] at d1
    rw [← ht.1] at d1
    exact absurd d1.1 (by decide)

/-- C13 as amended. `MillisFromSrtFormat` returns the error `Wrong format` with the text,
and no value, exactly for the texts that hold no piece of the shape
`digits:digits:digits,digits`. In a text that holds such a piece, the piece that starts
first, taken up to the end of its last run of digits, is read and what stands before
and after it is ignored: the result is the value of the piece modulo `2^32` when its
four groups fit `int`, and a range error otherwise. -/
theorem timestamp_format_error (text : Str) :
    (MillisFromSrtFormat text = .error (.wrongFormat text) ↔
      ¬ ∃ (pre : Str) (g : TimeMatch) (post : Str),
          g.shaped = true ∧ text = pre ++ g.text ++ post)
    ∧ (∀ (pre : Str) (g : TimeMatch) (post : Str),
        text = pre ++ g.text ++ post → g.shaped = true →
        post.head?.all (fun c => !isDigit c) = true →
        (∀ pre1 pre2 : Str, pre = pre1 ++ pre2 → pre2 ≠ [] →
          ¬ ∃ (g2 : TimeMatch) (post2 : Str),
              g2.shaped = true ∧ pre2 ++ (g.text ++ post) = g2.text ++ post2) →
        MillisFromSrtFormat text
          = if g.fitsInt = true then .ok g.millis else .error .atoiRange) := by
  refine ⟨wrongFormat_iff text, ?_⟩
  intro pre g post ht hg hpost hpre
  rw [ht]
  exact millis_leftmost pre g post hg hpost hpre

/-- Witness of C13 as amended: the text `0:00:20` holds no piece of the shape, and in
`x1:2:3,4y5:6:7,8` the piece `1:2:3,4` is read. -/
theorem timestamp_format_error_witness :
    (¬ ∃ (pre : Str) (g : TimeMatch) (post : Str),
        g.shaped = true ∧ ['0', ':', '0', '0', ':', '2', '0'] = pre ++ g.text ++ post)
    ∧ MillisFromSrtFormat twoTimes
        = (if (TimeMatch.mk ['1'] ['2'] ['3'] ['4']).fitsInt = true
            then .ok (TimeMatch.mk ['1'] ['2'] ['3'] ['4']).millis
            else .error .atoiRange)
    ∧ (TimeMatch.mk ['1'] ['2'] ['3'] ['4']).fitsInt = true
    ∧ (TimeMatch.mk ['1'] ['2'] ['3'] ['4']).millis = 3723004 :=
  ⟨(timestamp_format_error ['0', ':', '0', '0', ':', '2', '0']).1.mp offsetTime_run.2,
    (timestamp_format_error twoTimes).2 ['x'] ⟨['1'], ['2'], ['3'], ['4']⟩
      ['y', '5', ':', '6', ':', '7', ',', '8'] (by decide) (by decide) (by decide)
      (no_piece_in_nondigits ['x'] _ (by decide)),
    by decide, by decide⟩

/-- C14. For a timestamp text in canonical form (the hour is `0` or a run of digits
that does not start with `0`, the minutes and the seconds are two digits with a value of
at most 59, the milliseconds are three digits, and the value is below `2^32`),
`MillisFromSrtFormat` succeeds and `MsToSrtFormat` gives the text back. This holds for
`2:08:10,089`. -/
theorem canonical_round_trip (g : TimeMatch) (hs : g.shaped = true)
    (hh : g.h = ['0'] ∨ g.h.head? ≠ some '0')
    (hm : g.min.length = 2) (hm2 : decVal g.min ≤ 59)
    (hsec : g.sec.length = 2) (hsec2 : decVal g.sec ≤ 59)
    (hms : g.ms.length = 3)
    (htot : decVal g.ms + decVal g.sec * 1000 + decVal g.min * 60000
      + decVal g.h * 3600000 < 4294967296) :
    (MillisFromSrtFormat g.text).map MsToSrtFormat = .ok g.text
    ∧ (MillisFromSrtFormat ['2', ':', '0', '8', ':', '1', '0', ',', '0', '8', '9']).map
        MsToSrtFormat = .ok ['2', ':', '0', '8', ':', '1', '0', ',', '0', '8', '9'] := by
  obtain ⟨h1, h2⟩ := format_canonical g hs hh hm hm2 hsec hsec2 hms htot
  refine ⟨?_, by decide⟩
  rw [h1]
  show Except.ok (MsToSrtFormat _) = _
  rw [h2]

/-- Witness of C14 at `2:08:10,089`. -/
theorem canonical_round_trip_witness :
    (MillisFromSrtFormat (TimeMatch.text ⟨['2'], ['0', '8'], ['1', '0'], ['0', '8', '9']⟩)).map
        MsToSrtFormat
      = .ok (TimeMatch.text ⟨['2'], ['0', '8'], ['1', '0'], ['0', '8', '9']⟩) :=
  (canonical_round_trip ⟨['2'], ['0', '8'], ['1', '0'], ['0', '8', '9']⟩ (by decide)
    (by decide) (by decide) (by decide) (by decide) (by decide) (by decide) (by decide)).1

/-- C15 as stated fails. The block with the number `9223372036854775808` is
syntactically valid, but the number does not fit `int` and `NewSrtFromString` returns
an error. -/
theorem valid_block_with_big_number_fails :
    bigNumberBlock.valid = true
    ∧ NewSrtFromString bigNumberBlock.pieces.wire = .error .atoiRange :=
  bigNumberBlock_run

/-- C15 as amended. For a text made of syntactically valid blocks whose numbers and
timestamp groups fit `int`, with or without the line feeds of the last blank line at its
end, `NewSrtFromString` succeeds and returns one entry for each block, in the order of
the text, blocks with equal numbers and blocks numbered -1 included; the cached count is
the number of blocks whose number is not -1. The numbers 35, 36, 36 and 37 give 4
entries and the numbers 1, 3, -1 and 7 give the count 3. -/
theorem parse_valid_blocks (blocks : List Block) (text tail : Str)
    (hv : ∀ b ∈ blocks, b.valid = true ∧ b.fitsInt = true)
    (htext : text ++ tail = (blocks.map fun b => b.pieces.wire).flatten)
    (htail : tail = [] ∨ tail = ['\n'] ∨ tail = ['\n', '\n']) :
    NewSrtFromString text
        = .ok { Subtitles := blocks.map Block.entry,
                count := ((blocks.filter fun b => decide (numberValue b.number ≠ -1)).length
                  : Int) }
    ∧ (blocks.map Block.entry).length = blocks.length
    ∧ (NewSrtFromString newSrtInput).map (fun s => (s.Subtitles.length, s.GetCount))
        = .ok (4, 4)
    ∧ (NewSrtFromString srtStringInput).map (fun s => (s.Subtitles.length, s.GetCount))
        = .ok (4, 3) := by
  refine ⟨parse_blocks blocks text tail hv htext htail, by simp, newSrtInput_run, ?_⟩
  rw [srtStringInput_run]
  rfl

/-- Witness of C15 as amended: two blocks, the second one numbered -1, the last blank
line missing. -/
theorem parse_valid_blocks_witness :
    NewSrtFromString "7\n0:00:00,000 --> 0:00:10,000\nhi\n\n-1\n0:00:10,000 --> 0:00:10,000".toList
      = .ok { Subtitles := sampleBlocks.map Block.entry,
              count := ((sampleBlocks.filter fun b =>
                decide (numberValue b.number ≠ -1)).length : Int) } :=
  (parse_valid_blocks sampleBlocks _ ['\n', '\n'] sampleBlocks_run.1 sampleBlocks_run.2
    (Or.inr (Or.inr rfl))).1

/-- C17. When `NewSrtFromString` succeeds on a text with the collection `c`, it also
succeeds on `c.String()`; the entries it returns are the entries of `c` that are not
deleted, in the same order and with the same fields, and the cached count is their
number. The text of that collection is `c.String()` again. -/
theorem collection_round_trip (t : Str) (c : Srt) (h : NewSrtFromString t = .ok c) :
    NewSrtFromString c.String
        = .ok { Subtitles := c.Subtitles.filter fun sub => !sub.IsDeleted,
                count := liveCount c.Subtitles }
    ∧ (NewSrtFromString c.String).map Srt.String = .ok c.String := by
  have hr := reparse t c h
  refine ⟨hr, ?_⟩
  rw [hr]
  show Except.ok (Srt.String _) = _
  rw [string_of_live]

/-- Witness of C17 on the text of `TestSrtString`, whose third block is numbered -1. -/
theorem collection_round_trip_witness :
    NewSrtFromString srtStringSrt.String
        = .ok { Subtitles := srtStringSrt.Subtitles.filter fun sub => !sub.IsDeleted,
                count := liveCount srtStringSrt.Subtitles }
    ∧ (NewSrtFromString srtStringSrt.String).map Srt.String = .ok srtStringSrt.String :=
  collection_round_trip srtStringInput srtStringSrt srtStringInput_run

/-- C18. `TrimTo(c)` and `Cut(0, c)` return the same number and leave the same entries,
the same deleted entries and the same cached count. -/
theorem trimTo_refines_cut (s : Srt) (c : Nat) :
    (s.TrimTo c).2 = (s.Cut 0 c).2
    ∧ (s.TrimTo c).1.Subtitles = (s.Cut 0 c).1.Subtitles
    ∧ (s.TrimTo c).1.GetCount = (s.Cut 0 c).1.GetCount
    ∧ s.TrimTo c = s.Cut 0 c := by
  have h := trimTo_is_cut_zero s c
  exact ⟨by rw [h], by rw [h], by rw [h], h⟩

/-- C19. In a collection of `uint32` times whose live entries are ascending in `StartMs`,
with `start <= end`, the live entries after `Cut(start, end)` are ascending in `StartMs`
(strictly so when they were before), every live entry with `StartMs >= end` stays live
with the new `StartMs` at least `start`, and the live entries after `TrimTo(c)` are
ascending as well. -/
theorem cut_keeps_order (s : Srt) (start stop : Nat) (hse : start ≤ stop)
    (hstop : stop < 4294967296)
    (hwf : ∀ sub ∈ s.Subtitles, sub.IsDeleted = false → sub.StartMs < 4294967296)
    (hasc : List.Pairwise (fun a b => a.StartMs ≤ b.StartMs)
      (s.Subtitles.filter fun sub => !sub.IsDeleted)) :
    List.Pairwise (fun a b => a.StartMs ≤ b.StartMs)
        ((s.Cut start stop).1.Subtitles.filter fun sub => !sub.IsDeleted)
    ∧ (List.Pairwise (fun a b => a.StartMs < b.StartMs)
          (s.Subtitles.filter fun sub => !sub.IsDeleted) →
        List.Pairwise (fun a b => a.StartMs < b.StartMs)
          ((s.Cut start stop).1.Subtitles.filter fun sub => !sub.IsDeleted))
    ∧ List.Forall₂ (fun a b => a.IsDeleted = false → stop ≤ a.StartMs →
          b.IsDeleted = false ∧ start ≤ b.StartMs
            ∧ b.StartMs = a.StartMs - (stop - start))
        s.Subtitles (s.Cut start stop).1.Subtitles
    ∧ (∀ c : Nat, c < 4294967296 →
        List.Pairwise (fun a b => a.StartMs ≤ b.StartMs)
          ((s.TrimTo c).1.Subtitles.filter fun sub => !sub.IsDeleted)) := by
  refine ⟨cut_order s start stop hse hstop hwf hasc,
    cut_order_strict s start stop hse hstop hwf, ?_, ?_⟩
  · rw [cut_run]
    simp only [List.forall₂_map_right_iff]
    refine List.forall₂_same.mpr ?_
    intro a ha hd h3
    have := (cut_entry start stop hse hstop a _ (hwf a ha) rfl).2 hd h3
    rw [this]
    exact ⟨hd, by show start ≤ a.StartMs - (stop - start); omega, rfl⟩
  · intro c hc
    rw [trimTo_is_cut_zero]
    exact cut_order s 0 c (Nat.zero_le _) hc hwf hasc

/-- Witness of C19 on the five cues and `Cut(30000, 60000)`. -/
theorem cut_keeps_order_witness :
    List.Pairwise (fun a b => a.StartMs ≤ b.StartMs)
      ((fiveCuesSrt.Cut 30000 60000).1.Subtitles.filter fun sub => !sub.IsDeleted) :=
  (cut_keeps_order fiveCuesSrt 30000 60000 (by decide) (by decide) (by decide)
    (by decide)).1

/-- C20. In a collection of `uint32` times in which every live entry has
`EndMs >= StartMs`, with `start <= end`, every entry that is live after `Cut(start, end)`
was live before, has the same `EndMs - StartMs` and still `EndMs >= StartMs`, and either
is unchanged (its `StartMs` is below `start`) or has `StartMs` and `EndMs` lowered by
`end - start` as natural numbers, both being at least `end - start`. The same holds
after `TrimTo(c)` with the shift `c`. -/
theorem shift_keeps_duration (s : Srt) (start stop : Nat) (hse : start ≤ stop)
    (hstop : stop < 4294967296)
    (hwf : ∀ sub ∈ s.Subtitles, sub.IsDeleted = false →
      sub.StartMs < 4294967296 ∧ sub.EndMs < 4294967296)
    (hdur : ∀ sub ∈ s.Subtitles, sub.IsDeleted = false → sub.StartMs ≤ sub.EndMs) :
    List.Forall₂ (fun a b => b.IsDeleted = false →
        a.IsDeleted = false
        ∧ b.EndMs - b.StartMs = a.EndMs - a.StartMs ∧ b.StartMs ≤ b.EndMs
        ∧ ((a.StartMs < start ∧ b = a)
          ∨ (stop ≤ a.StartMs ∧ stop - start ≤ a.StartMs ∧ stop - start ≤ a.EndMs
              ∧ b.StartMs = a.StartMs - (stop - start)
              ∧ b.EndMs = a.EndMs - (stop - start))))
      s.Subtitles (s.Cut start stop).1.Subtitles
    ∧ (∀ c : Nat, c < 4294967296 →
        List.Forall₂ (fun a b => b.IsDeleted = false →
            a.IsDeleted = false
            ∧ b.EndMs - b.StartMs = a.EndMs - a.StartMs ∧ b.StartMs ≤ b.EndMs
            ∧ c ≤ a.StartMs ∧ c ≤ a.EndMs
            ∧ b.StartMs = a.StartMs - c ∧ b.EndMs = a.EndMs - c)
          s.Subtitles (s.TrimTo c).1.Subtitles) := by
  have key : ∀ (x y : Nat), x ≤ y → y < 4294967296 →
      List.Forall₂ (fun a b => b.IsDeleted = false →
        a.IsDeleted = false
        ∧ b.EndMs - b.StartMs = a.EndMs - a.StartMs ∧ b.StartMs ≤ b.EndMs
        ∧ ((a.StartMs < x ∧ b = a)
          ∨ (y ≤ a.StartMs ∧ y - x ≤ a.StartMs ∧ y - x ≤ a.EndMs
              ∧ b.StartMs = a.StartMs - (y - x)
              ∧ b.EndMs = a.EndMs - (y - x))))
      s.Subtitles (s.Cut x y).1.Subtitles := by
    intro x y hxy hy
    rw [cut_run]
    simp only [List.forall₂_map_right_iff]
    refine List.forall₂_same.mpr ?_
    intro a ha hb
    obtain ⟨hd, hcase⟩ := (cut_entry x y hxy hy a _ (fun h => (hwf a ha h).1) rfl).1 hb
    obtain ⟨hw1, hw2⟩ := hwf a ha hd
    have hle := hdur a ha hd
    rcases hcase with ⟨h1, h2⟩ | ⟨h1, h2⟩
    · rw [h2]
      exact ⟨hd, rfl, hle, Or.inl ⟨h1, rfl⟩⟩
    · rw [h2]
      have he : sub32 a.EndMs (y - x) = a.EndMs - (y - x) := by
        unfold sub32 u32
        omega
      refine ⟨hd, ?_, ?_, Or.inr ⟨h1, by omega, by omega, rfl, he⟩⟩
      · show sub32 a.EndMs (y - x) - (a.StartMs - (y - x)) = a.EndMs - a.StartMs
        rw [he]
        omega
      · show a.StartMs - (y - x) ≤ sub32 a.EndMs (y - x)
        rw [he]
        omega
  refine ⟨key start stop hse hstop, ?_⟩
  intro c hc
  rw [trimTo_is_cut_zero]
  refine (key 0 c (Nat.zero_le _) hc).imp ?_
  intro a b hab hb
  obtain ⟨hd, h1, h2, h3⟩ := hab hb
  rcases h3 with ⟨h4, _⟩ | ⟨h4, h5, h6, h7, h8⟩
  · omega
  · simp only [Nat.sub_zero] at h5 h6 h7 h8
    exact ⟨hd, h1, h2, h5, h6, h7, h8⟩

/-- Witness of C20 on the five cues and `Cut(30000, 60000)`. -/
theorem shift_keeps_duration_witness :
    List.Forall₂ (fun a b => b.IsDeleted = false →
        a.IsDeleted = false
        ∧ b.EndMs - b.StartMs = a.EndMs - a.StartMs ∧ b.StartMs ≤ b.EndMs
        ∧ ((a.StartMs < 30000 ∧ b = a)
          ∨ (60000 ≤ a.StartMs ∧ 60000 - 30000 ≤ a.StartMs ∧ 60000 - 30000 ≤ a.EndMs
              ∧ b.StartMs = a.StartMs - (60000 - 30000)
              ∧ b.EndMs = a.EndMs - (60000 - 30000))))
      fiveCuesSrt.Subtitles (fiveCuesSrt.Cut 30000 60000).1.Subtitles :=
  (shift_keeps_duration fiveCuesSrt 30000 60000 (by decide) (by decide) (by decide)
    (by decide)).1

end srt
